import Mathlib

/-!
Verification of the partial-extractor pipeline (`main.py`, class `HtmlRefactorer`).

The development shallowly embeds the pipeline's core computations:
markup trees are the inductive `HNode` (bs4 `Tag` / `NavigableString` /
`Comment`); `_canonicalize` becomes `canonicalize`; `_get_node_size` becomes
`nodeSize`; the mining loop of `_mine_and_tag_candidates` becomes `mineLoop`;
`_cluster_candidates` becomes `clusterCandidates`; `_extract_partials` becomes
`extractFragments`; `_extract_common_head_and_footer` becomes `extractHF`;
`_longest_common_suffix` becomes `lcSuffix`; the per-instance replacement of
`_replace_in_files` becomes `replaceFirstRefN`.

External collaborators are abstracted exactly where the spec excludes them:
the serialize-and-re-parse step of `_canonicalize` (`BeautifulSoup(str(tag),
'html.parser')`) is modelled by its tree effect — `html.parser` emits adjacent
text nodes as one run of character data and reads it back as a single text
node, so re-parsing coalesces adjacent text nodes (`mergeTextsN`) and is the
identity otherwise; the MinHash LSH index is an oracle `query` function, and
the 64-bit Simhash fingerprints are carried as data (`Cand.fp`); the Simhash
distance itself (`popcount` of the masked xor) is computed.
-/

/-! ## String helpers (Python `re.sub(r"\s+", " ", s)`, `strip`, `sorted`) -/

/-- Whitespace characters of Python's regex class `\s` (ASCII range). -/
def isWsChar (c : Char) : Bool :=
  c == ' ' || c == '\t' || c == '\n' || c == '\r' || c == '\x0b' || c == '\x0c'

/-- Prepend a non-whitespace character to the first token, when any. -/
def wsGlue2 (c : Char) : List (List Char) → List (List Char)
  | [] => [[c]]
  | t :: ts => (c :: t) :: ts

/-- Start or extend a token with the non-whitespace character `c`, where `cs`
is the remaining input and `rest` its tokens. -/
def wsGlue (c : Char) : List Char → List (List Char) → List (List Char)
  | [], _ => [[c]]
  | d :: _, rest => if isWsChar d then [c] :: rest else wsGlue2 c rest

/-- Maximal runs of non-whitespace characters, in order. -/
def wsTokens : List Char → List (List Char)
  | [] => []
  | c :: cs => if isWsChar c then wsTokens cs else wsGlue c cs (wsTokens cs)

/-- Join tokens with a single space. -/
def joinSp : List (List Char) → List Char
  | [] => []
  | [t] => t
  | t :: ts => t ++ ' ' :: joinSp ts

/-- Character-list form of `re.sub(r"\s+", " ", s).strip()`: collapse every
whitespace run to one space and trim the ends. -/
def normWsL (l : List Char) : List Char :=
  joinSp (wsTokens l)

/-- String form of the text normalization in `_canonicalize`. -/
def normWs (s : String) : String :=
  ⟨normWsL s.data⟩

/-- Python `s.strip(chars)`: drop characters satisfying `p` from both ends. -/
def stripBoth (p : Char → Bool) (s : String) : String :=
  ⟨((s.data.dropWhile p).reverse.dropWhile p).reverse⟩

/-- Python `s.strip()` (no argument): strip whitespace from both ends. -/
def pyStrip (s : String) : String :=
  stripBoth isWsChar s

/-- Python string comparison is code-point lexicographic; on the embedding we
compare the character lists (Lean's `String` order agrees but its decision
procedure does not reduce in the kernel). -/
def strDataLe (a b : String) : Prop :=
  a.data ≤ b.data

instance (a b : String) : Decidable (strDataLe a b) :=
  inferInstanceAs (Decidable (a.data ≤ b.data))

instance : IsTotal String strDataLe :=
  ⟨fun a b => le_total a.data b.data⟩

instance : IsTrans String strDataLe :=
  ⟨fun _ _ _ h h' => le_trans h h'⟩

/-- Python `sorted` on strings (a stable sort in lexicographic order). -/
def pySorted (l : List String) : List String :=
  List.insertionSort strDataLe l

/-- Candidate keys as `_mine_and_tag_candidates` assigns them: `f"c_{idx}"`. -/
def candidateKey (idx : Nat) : String :=
  "c_" ++ toString idx

/-- Number of set bits, by `fuel` halvings (64 suffice for a 64-bit value). -/
def popCountAux : Nat → Nat → Nat
  | 0, _ => 0
  | fuel + 1, n => n % 2 + popCountAux fuel (n / 2)

/-- Hamming distance of two 64-bit Simhash fingerprints
(`Simhash.distance`: popcount of the xor masked to the bit width). -/
def simhashDistance (a b : Nat) : Nat :=
  popCountAux 64 ((Nat.xor a b) % 2 ^ 64)

/-! ## The markup tree -/

/-- A bs4 attribute value: a plain string, or a token list for the
multi-valued attributes (`class`, `rel`, ...). -/
inductive AVal where
  | s (v : String)
  | l (vs : List String)
deriving BEq, Inhabited

/-- A parsed markup node: element (tag name, ordered attributes, ordered
children), text node, or comment node. -/
inductive HNode where
  | elem (tag : String) (attrs : List (String × AVal)) (children : List HNode)
  | text (s : String)
  | comment (s : String)
deriving Inhabited

/-- Structural induction for `HNode` (the nested `List` obliges a
hand-written eliminator). -/
theorem HNode.ind (P : HNode → Prop) (h1 : ∀ s, P (.text s))
    (h2 : ∀ s, P (.comment s))
    (h3 : ∀ t a cs, (∀ c ∈ cs, P c) → P (.elem t a cs)) : ∀ n, P n := by
  intro n
  refine @HNode.rec P (fun cs => ∀ c ∈ cs, P c) ?_ ?_ ?_ ?_ ?_ n
  · intro t a cs ih
    exact h3 t a cs ih
  · exact h1
  · exact h2
  · intro c hc
    cases hc
  · intro hd tl hhd htl c hc
    rcases hc with _ | h
    · exact hhd
    · exact htl _ (by assumption)

/-! ## The canonicalizer (`_canonicalize`) -/

/-- Word characters for the regex word boundary `\b`. -/
def wordChar (c : Char) : Bool :=
  c.isAlphanum || c == '_'

/-- Does `w` occur starting here, ending at a word boundary? -/
def wordAtHere (w rest : List Char) : Bool :=
  w.isPrefixOf rest &&
    (match rest.drop w.length with
     | [] => true
     | c :: _ => !wordChar c)

/-- Scan for a whole-word occurrence of `w`; `prevWord` records whether the
previous character was a word character (so `\b` holds before a hit). -/
def hasWordFrom (w : List Char) : Bool → List Char → Bool
  | _, [] => false
  | prevWord, c :: cs =>
    (!prevWord && wordAtHere w (c :: cs)) || hasWordFrom w (wordChar c) cs

/-- The alternatives of `STATEFUL_CLASSES = \b(active|current|open|show|selected|aria-current)\b`. -/
def statefulWords : List String :=
  ["active", "current", "open", "show", "selected", "aria-current"]

/-- `STATEFUL_CLASSES.search(c)`: a case-insensitive whole-word hit in the token. -/
def hasStatefulWord (c : String) : Bool :=
  statefulWords.any fun w => hasWordFrom w.data false (c.data.map Char.toLower)

/-- The literal set `{"active", "show", "current", "open", "selected", "collapsing"}`
tested alongside the regex in `_canonicalize`. -/
def statefulSet : List String :=
  ["active", "show", "current", "open", "selected", "collapsing"]

/-- Keep a class token iff the regex does not hit it and it is not in the set. -/
def keepClassToken (c : String) : Bool :=
  !hasStatefulWord c && !statefulSet.contains c

/-- Replace the value of attribute `k` in place (Python dict item assignment
on an existing key keeps its position). -/
def setAttr (k : String) (v : AVal) (attrs : List (String × AVal)) :
    List (String × AVal) :=
  attrs.map fun kv => if kv.1 == k then (kv.1, v) else kv

/-- Delete attribute `k` (Python `del el.attrs[k]`, remaining order kept). -/
def delAttr (k : String) (attrs : List (String × AVal)) : List (String × AVal) :=
  attrs.filter fun kv => kv.1 != k

/-- The class handling of `_canonicalize`: filter out stateful tokens, sort the
rest; set the sorted list back, or delete the attribute when nothing remains.
(bs4 parses `class` as a token list, so only the list form is touched.) -/
def classStep (attrs : List (String × AVal)) : List (String × AVal) :=
  match attrs.lookup "class" with
  | some (.l vs) =>
    if (pySorted (vs.filter keepClassToken)).isEmpty then delAttr "class" attrs
    else setAttr "class" (.l (pySorted (vs.filter keepClassToken))) attrs
  | _ => attrs

/-- Is the value a string starting with the character? (`isinstance(value, str)
and value.startswith("#")`). -/
def valStartsWith (c : Char) : AVal → Bool
  | .s v =>
    match v.data with
    | [] => false
    | d :: _ => d == c
  | .l _ => false

/-- `DROP_ATTRS = {"onclick", "onload", "style"}`. -/
def dropAttrsList : List String :=
  ["onclick", "onload", "style"]

/-- `KEEP_ATTRS = {"class", "role", "aria-label", "aria-labelledby", "href", "src", "id"}`. -/
def keepAttrsList : List String :=
  ["class", "role", "aria-label", "aria-labelledby", "href", "src", "id"]

/-- Does the attribute name start with `data-`? -/
def isDataAttr (k : String) : Bool :=
  "data-".data.isPrefixOf k.data

/-- One attribute through the if/elif chain of `_canonicalize`: normalize
fragment-only `href`/`data-bs-target` to a bare `#`, delete the volatile
attributes, delete the denylist and unknown `data-` attributes, keep the rest. -/
def chainEntry (kv : String × AVal) : Option (String × AVal) :=
  if (kv.1 == "href" || kv.1 == "data-bs-target") && valStartsWith '#' kv.2 then
    some (kv.1, .s "#")
  else if kv.1 == "id" || kv.1 == "aria-controls" || kv.1 == "aria-expanded"
      || kv.1 == "data-bs-toggle" then
    none
  else if dropAttrsList.contains kv.1 || (isDataAttr kv.1 && !keepAttrsList.contains kv.1) then
    none
  else
    some kv

/-- Apply the attribute chain to a whole attribute list (the source collects
deletions and normalizations per element, then applies them; positions of the
surviving attributes are preserved). -/
def chainStep (attrs : List (String × AVal)) : List (String × AVal) :=
  attrs.filterMap chainEntry

/-- Full per-element attribute processing of `_canonicalize`: class handling
first, then the attribute chain. -/
def canonElAttrs (attrs : List (String × AVal)) : List (String × AVal) :=
  chainStep (classStep attrs)

mutual

/-- Remove every comment node in the subtree (`_canonicalize` step 1). -/
def removeCommentsN : HNode → HNode
  | .elem t a cs => .elem t a (removeCommentsL cs)
  | n => n

def removeCommentsL : List HNode → List HNode
  | [] => []
  | .comment _ :: rest => removeCommentsL rest
  | n :: rest => removeCommentsN n :: removeCommentsL rest

end

mutual

/-- Apply `canonElAttrs` to this element and every element below it.
`_canonicalize` runs the attribute pass over `root.find_all(True)`, i.e. over
the root's descendants; `canonicalize` therefore applies this only to the
root's children. -/
def procAttrsN : HNode → HNode
  | .elem t a cs => .elem t (canonElAttrs a) (procAttrsL cs)
  | n => n

def procAttrsL : List HNode → List HNode
  | [] => []
  | n :: rest => procAttrsN n :: procAttrsL rest

end

mutual

/-- Normalize every text node in the subtree: collapse whitespace, drop the
node when nothing remains (`_canonicalize` final loop; comments were already
removed by the first pass, so only plain text nodes are handled). -/
def normTextsN : HNode → HNode
  | .elem t a cs => .elem t a (normTextsL cs)
  | n => n

def normTextsL : List HNode → List HNode
  | [] => []
  | .text s :: rest =>
    if normWs s == "" then normTextsL rest else .text (normWs s) :: normTextsL rest
  | n :: rest => normTextsN n :: normTextsL rest

end

/-- Glue the text `s` onto a merged tail: if the tail starts with a text node
the two texts are one run of character data and come back as one node. -/
def mergeGlue (s : String) : List HNode → List HNode
  | .text s2 :: tail => .text (s ++ s2) :: tail
  | merged => .text s :: merged

mutual

/-- Tree effect of `BeautifulSoup(str(tag), 'html.parser')`: serialization
writes adjacent text nodes as one run of character data, so the re-parse
returns the same tree with every maximal run of adjacent text nodes merged
into a single text node. -/
def mergeTextsN : HNode → HNode
  | .elem t a cs => .elem t a (mergeTextsL cs)
  | n => n

def mergeTextsL : List HNode → List HNode
  | [] => []
  | .text s :: rest => mergeGlue s (mergeTextsL rest)
  | n :: rest => mergeTextsN n :: mergeTextsL rest

end

/-- The canonicalizer `_canonicalize`. It re-parses `str(tag)` (modelled by
`mergeTextsL`, which coalesces adjacent text nodes) and takes the top-level
element; a non-tag input yields no usable root (`None`). Comments are then
removed everywhere; the attribute pass runs over the root's descendants (not
the root itself); the text pass runs everywhere. -/
def canonicalize : HNode → Option HNode
  | .elem t a cs =>
    some (.elem t a (normTextsL (procAttrsL (removeCommentsL (mergeTextsL cs)))))
  | _ => none

mutual

/-- Elements in a subtree, counting the subtree's own root element. -/
def subElems : HNode → Nat
  | .elem _ _ cs => 1 + subElemsL cs
  | _ => 0

def subElemsL : List HNode → Nat
  | [] => 0
  | n :: rest => subElems n + subElemsL rest

end

mutual

/-- String nodes with non-blank content in a subtree (bs4 `find_all(string=f)`
matches every `NavigableString`, comments included). -/
def subStrs : HNode → Nat
  | .elem _ _ cs => subStrsL cs
  | .text s => if pyStrip s == "" then 0 else 1
  | .comment s => if pyStrip s == "" then 0 else 1

def subStrsL : List HNode → Nat
  | [] => 0
  | n :: rest => subStrs n + subStrsL rest

end

/-- `_get_node_size`: element descendants plus non-blank string descendants
(`find_all` searches descendants, so the root itself is not counted). -/
def nodeSize : HNode → Nat
  | .elem _ _ cs => subElemsL cs + subStrsL cs
  | _ => 0

mutual

/-- Every element node of a subtree, the root included, in document order. -/
def allElemsN : HNode → List HNode
  | .elem t a cs => .elem t a cs :: allElemsL cs
  | _ => []

def allElemsL : List HNode → List HNode
  | [] => []
  | n :: rest => allElemsN n ++ allElemsL rest

end

/-- The element nodes strictly below a node. -/
def elemsBelow : HNode → List HNode
  | .elem _ _ cs => allElemsL cs
  | _ => []

/-- The attribute names of a node (empty for non-elements). -/
def attrKeys : HNode → List String
  | .elem _ a _ => a.map Prod.fst
  | _ => []

/-! ## The rewriter's per-instance replacement (`_replace_in_files`) -/

mutual

/-- Does some element of the subtree carry `data-refactor-id` equal to `rid`?
(`soup.find(attrs={"data-refactor-id": ref_id})` succeeds). -/
def hasRefId (rid : String) : HNode → Bool
  | .elem _ a cs => a.lookup "data-refactor-id" == some (.s rid) || hasRefIdL rid cs
  | _ => false

def hasRefIdL (rid : String) : List HNode → Bool
  | [] => false
  | n :: rest => hasRefId rid n || hasRefIdL rid rest

end

mutual

/-- Replace the first element (document order) whose `data-refactor-id` equals
`rid` with `repl`; the Bool reports whether a replacement happened. Models
`target = soup.find(attrs={"data-refactor-id": ref_id}); if target:
target.replace_with(...)` for one recorded instance. -/
def replaceFirstRefN (rid : String) (repl : HNode) : HNode → HNode × Bool
  | .elem t a cs =>
    if a.lookup "data-refactor-id" == some (.s rid) then (repl, true)
    else
      let r := replaceFirstRefL rid repl cs
      (.elem t a r.1, r.2)
  | n => (n, false)

def replaceFirstRefL (rid : String) (repl : HNode) : List HNode → List HNode × Bool
  | [] => ([], false)
  | n :: rest =>
    let r := replaceFirstRefN rid repl n
    if r.2 then (r.1 :: rest, true)
    else
      let rs := replaceFirstRefL rid repl rest
      (r.1 :: rs.1, rs.2)

end

/-! ## Mining, clustering and emission (`_mine_and_tag_candidates`,
`_cluster_candidates`, `_extract_partials`) -/

/-- A stored candidate, the payload of `self.items[key] = (html_path,
raw_tag_html, canonical_tag, mh, simh)`: source page, pristine raw markup
(marker included, captured right after tagging), canonical copy, and the
64-bit Simhash fingerprint. The MinHash is not carried: the LSH index is
abstracted as a `query` oracle. -/
structure Cand where
  page : String
  raw : HNode
  canon : HNode
  fp : Nat
deriving Inhabited

/-- The tagging loop of `_mine_and_tag_candidates` over one iteration order of
the mined-element set. Every element is first marked with `f"c_{idx}"`
(`tag['data-refactor-id'] = key`); only when its canonicalization yields a
usable root (`if canonical_tag:` — `canonOk`) is the candidate stored and the
counter advanced. Returns (marker assignments in iteration order, stored
items in insertion order). -/
def mineLoop (canonOk : Cand → Bool) : List Cand → Nat → List (Cand × String) × List (String × Cand)
  | [], _ => ([], [])
  | c :: rest, idx =>
    let key := candidateKey idx
    if canonOk c then
      let r := mineLoop canonOk rest (idx + 1)
      ((c, key) :: r.1, (key, c) :: r.2)
    else
      let r := mineLoop canonOk rest idx
      ((c, key) :: r.1, r.2)

/-- Dictionary lookup `self.items[key]`. -/
def getItem (items : List (String × Cand)) (k : String) : Cand :=
  (items.lookup k).getD default

/-- The confirmatory acceptance test of `_cluster_candidates`: reject when the
Simhash distance exceeds `SIMHASH_DISTANCE = 6`; reject when both node counts
are positive and `min/max < NODE_COUNT_SIMILARITY = 0.85`; otherwise accept. -/
def acceptPair (seed near : Cand) : Bool :=
  if 6 < simhashDistance seed.fp near.fp then false
  else if 0 < nodeSize seed.canon ∧ 0 < nodeSize near.canon ∧
      (min (nodeSize seed.canon) (nodeSize near.canon) : ℚ) /
        (max (nodeSize seed.canon) (nodeSize near.canon) : ℚ) < 0.85 then false
  else true

/-- The inner loop of `_cluster_candidates` over the LSH matches of one seed:
skip the seed itself and already-claimed keys, append accepted matches to the
cluster and mark them visited. -/
def growCluster (items : List (String × Cand)) (seedKey : String) :
    List String → List String → List String → List String × List String
  | [], cluster, visited => (cluster, visited)
  | nk :: rest, cluster, visited =>
    if nk = seedKey ∨ nk ∈ visited then growCluster items seedKey rest cluster visited
    else if acceptPair (getItem items seedKey) (getItem items nk) then
      growCluster items seedKey rest (cluster ++ [nk]) (nk :: visited)
    else growCluster items seedKey rest cluster visited

/-- The outer loop of `_cluster_candidates`: take each key of the sorted key
list as a seed unless already claimed, grow its cluster from the LSH query
results, and keep the cluster only when it has more than one member. The
visited set advances whether or not the cluster is kept. -/
def clusterGo (items : List (String × Cand)) (query : String → List String) :
    List String → List String → List (List String)
  | [], _ => []
  | k :: rest, visited =>
    if k ∈ visited then clusterGo items query rest visited
    else if 1 < (growCluster items k (query k) [k] (k :: visited)).1.length then
      (growCluster items k (query k) [k] (k :: visited)).1 ::
        clusterGo items query rest (growCluster items k (query k) [k] (k :: visited)).2
    else clusterGo items query rest (growCluster items k (query k) [k] (k :: visited)).2

/-- `_cluster_candidates`: one greedy pass over `sorted(self.items.keys())`,
clusters as ordered key lists. `query` is the `self.lsh.query` oracle. -/
def clusterCandidates (items : List (String × Cand)) (query : String → List String) :
    List (List String) :=
  clusterGo items query (pySorted (items.map Prod.fst)) []

/-- An emitted partial: file name, body markup, and the recorded instances
(refactor id, source page). -/
structure FragOut where
  file : String
  body : HNode
  instances : List (String × String)
deriving Inhabited

/-- Root tag name of a node (`medoid_template.name`). -/
def rootTag : HNode → String
  | .elem t _ _ => t
  | _ => ""

/-- Delete the transient marker from the root of the re-parsed raw markup
(`del medoid_template['data-refactor-id']`; only the root was tagged when the
raw markup was captured). -/
def delRootRef : HNode → HNode
  | .elem t a cs => .elem t (delAttr "data-refactor-id" a) cs
  | n => n

/-- One entry of `_extract_partials`: the cluster's first member (`cluster[0]`)
is the medoid; its pristine raw markup, marker stripped, becomes the partial
body; the file name is `f"partial_{i + 1}_{medoid_template.name}.html"`; every
member is recorded as an instance. -/
def mkFrag (items : List (String × Cand)) (i : Nat) (cl : List String) : FragOut :=
  let body := delRootRef (getItem items (cl.headD "")).raw
  { file := "partial_" ++ toString (i + 1) ++ "_" ++ rootTag body ++ ".html"
    body := body
    instances := cl.map fun k => (k, (getItem items k).page) }

/-- `_extract_partials` over the retained clusters. (The guard for an empty
medoid never fires: stored items always carry a parsed tag.) -/
def extractFragments (items : List (String × Cand)) (clusters : List (List String)) :
    List FragOut :=
  clusters.enum.map fun ic => mkFrag items ic.1 ic.2

/-! ## Head/footer extraction (`_extract_common_head_and_footer`,
`_longest_common_suffix`) -/

/-- Longest common prefix of two character lists. -/
def lcp2 : List Char → List Char → List Char
  | a :: as, b :: bs => if a = b then a :: lcp2 as bs else []
  | _, _ => []

/-- `_longest_common_suffix`: the common prefix of the reversed strings,
reversed back; empty for an empty list. -/
def lcSuffix (strings : List String) : String :=
  match strings with
  | [] => ""
  | s :: rest =>
    ⟨(rest.foldl (fun acc t => lcp2 acc t.data.reverse) s.data.reverse).reverse⟩

/-- A page's residual title: the title with the common suffix cut off and
`" |-"` separator characters stripped; the title itself when there is no
common suffix (`t[:len(t) - len(common_suffix)].strip(" |-") if common_suffix
else t`). -/
def residualTitle (commonSuffix t : String) : String :=
  if commonSuffix ≠ "" then
    stripBoth (fun c => c == ' ' || c == '|' || c == '-')
      ⟨t.data.take (t.length - commonSuffix.length)⟩
  else t

/-- A head `meta` element: its `charset` attribute (when present) and its
serialized form `str(m)`. -/
structure MetaEl where
  charset : Option String
  ser : String
deriving Inhabited

/-- Python truthiness of `m.get("charset")`: false for a missing attribute and
for an empty string. -/
def charsetFalsy (m : MetaEl) : Bool :=
  match m.charset with
  | none => true
  | some v => v == ""

/-- A head `link` element: its `rel` token list (empty when absent) and its
serialized form. -/
structure LinkEl where
  rel : List String
  ser : String
deriving Inhabited

/-- A head `script` element: optional `src`, optional inline body
(`s.string`), serialized form. -/
structure ScriptEl where
  src : Option String
  body : Option String
  ser : String
deriving Inhabited

/-- Python truthiness of an optional string. -/
def truthyOpt : Option String → Bool
  | none => false
  | some v => v != ""

/-- `s.get("src") or s.string`: head scripts kept for the intersection. -/
def scriptKept (s : ScriptEl) : Bool :=
  truthyOpt s.src || truthyOpt s.body

/-- A body script carrying a `src` attribute (`find_all("script", src=True)`). -/
structure FScript where
  src : String
  ser : String
deriving Inhabited

/-- The head of a document: title text (when a `title` element with a string
is present), metas, links, styles (serialized), and scripts. -/
structure HeadM where
  title : Option String
  metas : List MetaEl
  links : List LinkEl
  styles : List String
  scripts : List ScriptEl
deriving Inhabited

/-- The body of a document, reduced to its `src`-carrying scripts. -/
structure BodyM where
  scripts : List FScript
deriving Inhabited

/-- A parsed document of the corpus. -/
structure DocM where
  head : Option HeadM
  body : Option BodyM
deriving Inhabited

/-- Intersection of a list of string sets (`set.intersection(*sets) if sets
else set()`), each set already deduplicated. -/
def interAll : List (List String) → List String
  | [] => []
  | s :: rest => rest.foldl (fun acc t => acc.filter (· ∈ t)) s

/-- The per-document title text: `head.find("title").string.strip()` when the
title element holds a string, else `""`. -/
def titleOf (h : HeadM) : String :=
  match h.title with
  | some t => pyStrip t
  | none => ""

/-- The meta set of one head: serialized metas whose `charset` is falsy. -/
def metaSet (h : HeadM) : List String :=
  ((h.metas.filter charsetFalsy).map MetaEl.ser).dedup

/-- The link set of one head: serialized links whose `rel` is not exactly
`["stylesheet"]`. -/
def linkSet (h : HeadM) : List String :=
  ((h.links.filter fun l => l.rel ≠ ["stylesheet"]).map LinkEl.ser).dedup

/-- The style set of one head. -/
def styleSet (h : HeadM) : List String :=
  h.styles.dedup

/-- The head-script set of one head: scripts with a `src` or an inline body. -/
def headScriptSet (h : HeadM) : List String :=
  ((h.scripts.filter scriptKept).map ScriptEl.ser).dedup

/-- The body-script source set of one body. -/
def srcSet (b : BodyM) : List String :=
  (b.scripts.map FScript.src).dedup

/-- The footer representative markup for a source: the last body script with
that source wins (`rep_script_footer[s.get("src")] = str(s)` across all
documents in order). -/
def repFooter (docs : List DocM) (src : String) : String :=
  ((((docs.filterMap DocM.body).map BodyM.scripts).flatten.filter
    fun s => s.src == src).map FScript.ser).getLastD ""

/-- The title line of the shared fragment: a placeholder, with the common
suffix appended when there is one. -/
def titleLine (commonSuffix : String) : String :=
  if commonSuffix ≠ "" then
    "<title>\x7b\x7b page_title \x7d\x7d " ++ commonSuffix ++ "</title>"
  else
    "<title>\x7b\x7b page_title \x7d\x7d</title>"

/-- The output of `_extract_common_head_and_footer`: the lines of
`title-meta.html`, the lines of `head-css.html`, the lines of
`footer-scripts.html`, and the per-page residual titles (document order). -/
structure HFOut where
  titleMetaLines : List String
  headCssLines : List String
  footerLines : List String
  pageTitles : List String
deriving Inhabited

/-- The heads of the corpus, in document order (documents without a head are
skipped: `if not head: continue`). -/
def hfHeads (docs : List DocM) : List HeadM :=
  docs.filterMap DocM.head

/-- The per-document title texts. -/
def hfTitles (docs : List DocM) : List String :=
  (hfHeads docs).map titleOf

/-- The common title suffix of the corpus. -/
def hfCommonSuffix (docs : List DocM) : String :=
  lcSuffix (hfTitles docs)

/-- The lines written to `title-meta.html`: the parameterized title line, the
sorted meta intersection, the sorted link intersection (the representative
maps are keyed by the serialized form and map it to itself). -/
def hfTitleMetaLines (docs : List DocM) : List String :=
  titleLine (hfCommonSuffix docs) ::
    (pySorted (interAll ((hfHeads docs).map metaSet)) ++
      pySorted (interAll ((hfHeads docs).map linkSet)))

/-- Stylesheet links taken verbatim from the first document
(`first_soup.head.find_all("link", rel="stylesheet")`; bs4 matches a
multi-valued `rel` when it contains the sought token). -/
def hfCssFirst (docs : List DocM) : List String :=
  match docs.head? with
  | some d =>
    match d.head with
    | some h => (h.links.filter fun l => "stylesheet" ∈ l.rel).map LinkEl.ser
    | none => []
  | none => []

/-- The lines written to `head-css.html`: first document's stylesheet links,
then the sorted style and head-script intersections. -/
def hfHeadCssLines (docs : List DocM) : List String :=
  hfCssFirst docs ++ pySorted (interAll ((hfHeads docs).map styleSet)) ++
    pySorted (interAll ((hfHeads docs).map headScriptSet))

/-- The intersection of the bodies' script-source sets (documents without a
body are skipped). -/
def hfCommonJs (docs : List DocM) : List String :=
  interAll ((docs.filterMap DocM.body).map srcSet)

/-- The lines written to `footer-scripts.html`: one representative script
markup per shared source, in sorted source order. -/
def hfFooterLines (docs : List DocM) : List String :=
  (pySorted (hfCommonJs docs)).map (repFooter docs)

/-- `_extract_common_head_and_footer` on a corpus (document order fixed). -/
def extractHF (docs : List DocM) : HFOut :=
  { titleMetaLines := hfTitleMetaLines docs
    headCssLines := hfHeadCssLines docs
    footerLines := hfFooterLines docs
    pageTitles := (hfTitles docs).map (residualTitle (hfCommonSuffix docs)) }

example : normWs "  a \n b  " = "a b" := by decide
example : canonicalize (.text "x") = none := rfl
example :
    canonicalize (.elem "nav" [("id", .s "x")] [.comment "c", .text " hi   there "]) =
      some (.elem "nav" [("id", .s "x")] [.text "hi there"]) := rfl
example : nodeSize (.elem "div" [] [.elem "p" [] [.text "a"], .text "  "]) = 2 := rfl
example : hasStatefulWord "Active" = true := by decide
example : hasStatefulWord "activex" = false := by decide
example : hasStatefulWord "active-item" = true := by decide
example : keepClassToken "collapsing" = false := by decide
example : keepClassToken "navbar" = true := by decide

/-! ## Concrete corpus fixtures -/

/-- Test candidate A: fingerprint 0 (six bits from B, twelve from C). -/
def candA : Cand :=
  { page := "index.html", raw := .text "A", canon := .elem "div" [] [], fp := 0 }

/-- Test candidate B: fingerprint with six low bits set. -/
def candB : Cand :=
  { page := "index.html", raw := .text "B", canon := .elem "div" [] [], fp := 63 }

/-- Test candidate C: fingerprint with twelve low bits set (distance 6 from B,
12 from A). -/
def candC : Cand :=
  { page := "index.html", raw := .text "C", canon := .elem "div" [] [], fp := 4095 }

/-- The stored items produced by the tagging loop when every canonicalization
succeeds, for one iteration order of the mined-element set. -/
def storedItems (order : List Cand) : List (String × Cand) :=
  (mineLoop (fun _ => true) order 0).2

/-- The cluster partition (as fingerprint lists) the pipeline computes from
one iteration order, with an LSH oracle that reports every candidate as a
near match (all three fixture fingerprints sketch near-identical trees). -/
def runFps (order : List Cand) : List (List Nat) :=
  (clusterCandidates (storedItems order) (fun _ => (storedItems order).map Prod.fst)).map
    (List.map fun k => (getItem (storedItems order) k).fp)

/-- The seed iteration order of `_cluster_candidates` when the stored
candidates are `c_0 .. c_{n-1}`: `sorted(self.items.keys())`. -/
def seedOrder (n : Nat) : List String :=
  pySorted ((List.range n).map candidateKey)

/-- A mined element whose canonicalization yields no usable root
(`_canonicalize` returns `None`, the spec's MalformedCandidate case). -/
def candFail : Cand :=
  { page := "fail.html", raw := .text "F", canon := .elem "div" [] [], fp := 0 }

/-- A mined element whose canonicalization succeeds, mined right after
`candFail`. -/
def candOk : Cand :=
  { page := "ok.html", raw := .text "O", canon := .elem "div" [] [], fp := 0 }

/-! ## Clustering invariants -/

/-- The Boolean acceptance test, characterized: accept iff the Simhash
distance is within 6 and, whenever both node counts are positive, the size
ratio reaches 0.85 (a zero size skips the ratio test rather than rejecting). -/
theorem acceptPair_true_iff (seed near : Cand) :
    acceptPair seed near = true ↔
      simhashDistance seed.fp near.fp ≤ 6 ∧
      (0 < nodeSize seed.canon → 0 < nodeSize near.canon →
        (0.85 : ℚ) ≤ (min (nodeSize seed.canon) (nodeSize near.canon) : ℚ) /
          (max (nodeSize seed.canon) (nodeSize near.canon) : ℚ)) := by
  unfold acceptPair
  split_ifs with h1 h2
  · apply iff_of_false
    · simp
    · rintro ⟨hle, -⟩
      omega
  · apply iff_of_false
    · simp
    · rintro ⟨-, himp⟩
      obtain ⟨p1, p2, hlt⟩ := h2
      exact absurd (himp p1 p2) (not_le.2 hlt)
  · apply iff_of_true rfl
    refine ⟨by omega, fun p1 p2 => ?_⟩
    by_contra hcon
    exact h2 ⟨p1, p2, not_le.1 hcon⟩

/-- Invariants of the inner loop of `_cluster_candidates`: the grown cluster
is contained in the final visited set; it stays duplicate-free; the visited
set only grows; every member was already in the cluster or was unclaimed; and
the new members are exactly an accepted tail appended to the initial cluster. -/
theorem growCluster_spec (items : List (String × Cand)) (seedKey : String) :
    ∀ near cluster visited,
      (∀ x ∈ cluster, x ∈ visited) → cluster.Nodup →
      (∀ x ∈ (growCluster items seedKey near cluster visited).1,
          x ∈ (growCluster items seedKey near cluster visited).2) ∧
      (growCluster items seedKey near cluster visited).1.Nodup ∧
      (∀ x ∈ visited, x ∈ (growCluster items seedKey near cluster visited).2) ∧
      (∀ x ∈ (growCluster items seedKey near cluster visited).1,
          x ∈ cluster ∨ x ∉ visited) ∧
      (∃ tail, (growCluster items seedKey near cluster visited).1 = cluster ++ tail ∧
          ∀ x ∈ tail, acceptPair (getItem items seedKey) (getItem items x) = true) := by
  intro near
  induction near with
  | nil =>
    intro cluster visited h1 h2
    rw [growCluster]
    exact ⟨h1, h2, fun x hx => hx, fun x hx => Or.inl hx, [], by simp, by simp⟩
  | cons nk rest ih =>
    intro cluster visited h1 h2
    rw [growCluster]
    split_ifs with hskip hacc
    · exact ih cluster visited h1 h2
    · have hnk_nv : nk ∉ visited := fun hv => hskip (Or.inr hv)
      have hnk_nc : nk ∉ cluster := fun hc => hnk_nv (h1 nk hc)
      have h1' : ∀ x ∈ cluster ++ [nk], x ∈ nk :: visited := by
        intro x hx
        rcases List.mem_append.1 hx with hx | hx
        · exact List.mem_cons_of_mem _ (h1 x hx)
        · simp only [List.mem_singleton] at hx
          subst hx
          exact List.mem_cons_self _ _
      have h2' : (cluster ++ [nk]).Nodup := by
        simp [List.nodup_append, h2, hnk_nc]
      obtain ⟨A, B, C, D, E⟩ := ih (cluster ++ [nk]) (nk :: visited) h1' h2'
      refine ⟨A, B, fun x hx => C x (List.mem_cons_of_mem _ hx), ?_, ?_⟩
      · intro x hx
        rcases D x hx with hx' | hx'
        · rcases List.mem_append.1 hx' with h | h
          · exact Or.inl h
          · simp only [List.mem_singleton] at h
            subst h
            exact Or.inr hnk_nv
        · exact Or.inr fun hv => hx' (List.mem_cons_of_mem _ hv)
      · obtain ⟨tail, htail, hacc'⟩ := E
        refine ⟨nk :: tail, ?_, ?_⟩
        · rw [htail, List.append_assoc]
          rfl
        · intro x hx
          rcases List.mem_cons.1 hx with rfl | hx'
          · exact hacc
          · exact hacc' x hx'
    · exact ih cluster visited h1 h2

/-- Invariants of the outer loop of `_cluster_candidates`: every kept cluster
has at least two members, is duplicate-free, avoids the incoming visited set,
and consists of its seed followed by members that passed the acceptance test
against that seed; distinct kept clusters are disjoint. -/
theorem clusterGo_spec (items : List (String × Cand)) (query : String → List String) :
    ∀ keys visited,
      (∀ c ∈ clusterGo items query keys visited,
          2 ≤ c.length ∧ c.Nodup ∧ (∀ x ∈ c, x ∉ visited) ∧
          ∃ k tail, c = k :: tail ∧
            ∀ x ∈ tail, acceptPair (getItem items k) (getItem items x) = true) ∧
      List.Pairwise (fun c d => ∀ x ∈ c, x ∉ d) (clusterGo items query keys visited) := by
  intro keys
  induction keys with
  | nil =>
    intro visited
    constructor
    · intro c hc
      rw [clusterGo] at hc
      cases hc
    · rw [clusterGo]
      exact List.Pairwise.nil
  | cons k rest ih =>
    intro visited
    rw [clusterGo]
    split_ifs with hk hlen
    · exact ih visited
    · have pre1 : ∀ x ∈ ([k] : List String), x ∈ k :: visited := by simp
      have pre2 : ([k] : List String).Nodup := by simp
      obtain ⟨A, B, C, D, E⟩ :=
        growCluster_spec items k (query k) [k] (k :: visited) pre1 pre2
      obtain ⟨IH1, IH2⟩ := ih (growCluster items k (query k) [k] (k :: visited)).2
      constructor
      · intro c hc
        rcases List.mem_cons.1 hc with rfl | hc'
        · refine ⟨by omega, B, ?_, ?_⟩
          · intro x hx
            rcases D x hx with hx' | hx'
            · simp only [List.mem_singleton] at hx'
              subst hx'
              exact hk
            · exact fun hv => hx' (List.mem_cons_of_mem _ hv)
          · obtain ⟨tail, htail, hacc'⟩ := E
            exact ⟨k, tail, htail, hacc'⟩
        · obtain ⟨l1, l2, l3, l4⟩ := IH1 c hc'
          refine ⟨l1, l2, ?_, l4⟩
          intro x hx hv
          exact l3 x hx (C x (List.mem_cons_of_mem _ hv))
      · refine List.Pairwise.cons ?_ IH2
        intro d hd x hx hxd
        exact (IH1 d hd).2.2.1 x hxd (A x hx)
    · obtain ⟨A, B, C, D, E⟩ :=
        growCluster_spec items k (query k) [k] (k :: visited)
          (by simp) (by simp)
      obtain ⟨IH1, IH2⟩ := ih (growCluster items k (query k) [k] (k :: visited)).2
      constructor
      · intro c hc
        obtain ⟨l1, l2, l3, l4⟩ := IH1 c hc
        refine ⟨l1, l2, ?_, l4⟩
        intro x hx hv
        exact l3 x hx (C x (List.mem_cons_of_mem _ hv))
      · exact IH2

/-! ## Claim theorems -/

/-- Helper for the rewriter: a list with no marked element is returned
unchanged by the replacement scan. -/
theorem replaceFirstRefL_of_none (rid : String) (repl : HNode) :
    ∀ cs : List HNode,
      (∀ c ∈ cs, hasRefId rid c = false → replaceFirstRefN rid repl c = (c, false)) →
      hasRefIdL rid cs = false → replaceFirstRefL rid repl cs = (cs, false) := by
  intro cs
  induction cs with
  | nil => intro _ _; rfl
  | cons n rest ih =>
    intro hall h
    rw [hasRefIdL, Bool.or_eq_false_iff] at h
    have hn := hall n (List.mem_cons_self _ _) h.1
    rw [replaceFirstRefL, hn,
      ih (fun c hc => hall c (List.mem_cons_of_mem _ hc)) h.2]
    simp

/-- C10: the rewriter tolerates missing markers. When no element of the
document carries `data-refactor-id` equal to the instance's id, the
replacement step returns the document unchanged and reports that no
replacement happened — replacement occurs only when a marked element exists
(`target = soup.find(...); if target: target.replace_with(...)`). -/
theorem rewriter_skips_missing_marker (doc repl : HNode) (rid : String)
    (h : hasRefId rid doc = false) :
    replaceFirstRefN rid repl doc = (doc, false) := by
  induction doc using HNode.ind with
  | h1 s => rfl
  | h2 s => rfl
  | h3 t a cs ih =>
    rw [hasRefId, Bool.or_eq_false_iff] at h
    rw [replaceFirstRefN]
    simp only [h.1, Bool.false_eq_true, if_false]
    rw [replaceFirstRefL_of_none rid repl cs (fun c hc => ih c hc) h.2]

/-- C10 witness: a concrete document without the marker `c_9` is left
untouched. -/
theorem rewriter_skips_missing_marker_witness :
    replaceFirstRefN "c_9" (.text "@@include")
        (.elem "html" [] [.elem "body" []
          [.elem "nav" [("data-refactor-id", .s "c_0")] [.text "menu"]]]) =
      (.elem "html" [] [.elem "body" []
        [.elem "nav" [("data-refactor-id", .s "c_0")] [.text "menu"]]], false) :=
  rewriter_skips_missing_marker _ _ _ (by decide)

/-- C1: the mined-element set's iteration order changes the output. Two runs
on the same mined candidates {A, B, C} (pairwise Simhash distances 6, 6, 12),
differing only in the order the Python set `found_tags` is iterated, assign
ids differently and produce different cluster partitions: {A, B} leaving C
unclustered, versus {B, A, C}. -/
theorem mining_set_order_changes_clusters :
    runFps [candA, candB, candC] = [[0, 63]] ∧
    runFps [candB, candA, candC] = [[63, 0, 4095]] :=
  ⟨by decide, by decide⟩

/-- C5: when an element's canonicalization fails the counter is not advanced,
so the failed element and the next mined element are marked with the same
`data-refactor-id`: here both carry `c_0` although they are distinct
elements. -/
theorem duplicate_marker_on_failed_canonicalization :
    (mineLoop (fun c => c.page != "fail.html") [candFail, candOk] 0).1 =
      [(candFail, "c_0"), (candOk, "c_0")] ∧
    candFail.page ≠ candOk.page :=
  ⟨rfl, by decide⟩

/-- C2 counterexample: with eleven candidates `c_0 .. c_10`, the seed pass
considers `c_10` (ordinal 10) before `c_2` (ordinal 2), because
`sorted(self.items.keys())` sorts the key strings lexicographically. -/
theorem seed_iteration_not_ordinal_with_eleven :
    ¬ ((seedOrder 11).indexOf (candidateKey 2) < (seedOrder 11).indexOf (candidateKey 10)) := by
  decide

/-- C2 amended: the clustering pass iterates seeds in ascending lexicographic
order of the id strings; that order agrees with ascending ordinal order when
there are at most ten candidates (all ordinals a single digit), and the
counterexample shows it fails from eleven candidates on. -/
theorem seed_iteration_lexicographic :
    ∀ n : Nat, List.Sorted strDataLe (seedOrder n) ∧
      (n ≤ 10 → ∀ j, j < n → ∀ i, i < j →
        (seedOrder n).indexOf (candidateKey i) < (seedOrder n).indexOf (candidateKey j)) := by
  intro n
  constructor
  · unfold seedOrder pySorted
    exact List.sorted_insertionSort strDataLe _
  · intro hn
    interval_cases n <;> decide

/-- C3: partition invariant of clustering. Every emitted cluster has at least
two members and no duplicates; distinct emitted clusters are disjoint (so a
candidate belongs to at most one); and the emitted partial at each position
is built from the cluster's first member: its body is that member's pristine
raw markup (marker stripped) and every member is recorded as an instance. -/
theorem clustering_partition_invariant :
    (∀ (items : List (String × Cand)) (query : String → List String),
      ∀ c ∈ clusterCandidates items query, 2 ≤ c.length ∧ c.Nodup) ∧
    (∀ (items : List (String × Cand)) (query : String → List String),
      List.Pairwise (fun c d => ∀ x ∈ c, x ∉ d) (clusterCandidates items query)) ∧
    (∀ (items : List (String × Cand)) (query : String → List String) (i : Nat)
        (c : List String), (clusterCandidates items query)[i]? = some c →
      (extractFragments items (clusterCandidates items query))[i]? =
        some (mkFrag items i c) ∧
      (mkFrag items i c).body = delRootRef (getItem items (c.headD "")).raw ∧
      (mkFrag items i c).instances = c.map fun k => (k, (getItem items k).page)) := by
  refine ⟨?_, ?_, ?_⟩
  · intro items query c hc
    obtain ⟨l1, l2, -, -⟩ :=
      (clusterGo_spec items query (pySorted (items.map Prod.fst)) []).1 c hc
    exact ⟨l1, l2⟩
  · intro items query
    exact (clusterGo_spec items query (pySorted (items.map Prod.fst)) []).2
  · intro items query i c hc
    refine ⟨?_, rfl, rfl⟩
    unfold extractFragments
    rw [List.getElem?_map, List.getElem?_enum, hc]
    rfl

/-- The common prefix of two lists is a prefix of the left one. -/
theorem lcp2_prefix_left : ∀ a b : List Char, lcp2 a b <+: a := by
  intro a
  induction a with
  | nil => intro b; cases b <;> simp [lcp2]
  | cons x as ih =>
    intro b
    cases b with
    | nil => simp [lcp2]
    | cons y bs =>
      rw [lcp2]
      by_cases h : x = y
      · subst h
        rw [if_pos rfl]
        exact List.cons_prefix_cons.2 ⟨rfl, ih bs⟩
      · simp [h]

/-- The common prefix of two lists is a prefix of the right one. -/
theorem lcp2_prefix_right : ∀ a b : List Char, lcp2 a b <+: b := by
  intro a
  induction a with
  | nil => intro b; cases b <;> simp [lcp2]
  | cons x as ih =>
    intro b
    cases b with
    | nil => simp [lcp2]
    | cons y bs =>
      rw [lcp2]
      by_cases h : x = y
      · subst h
        rw [if_pos rfl]
        exact List.cons_prefix_cons.2 ⟨rfl, ih bs⟩
      · simp [h]

/-- Any common prefix of two lists is a prefix of their common prefix. -/
theorem prefix_lcp2 : ∀ (t a b : List Char), t <+: a → t <+: b → t <+: lcp2 a b := by
  intro t
  induction t with
  | nil => intro a b _ _; exact List.nil_prefix
  | cons c ts ih =>
    intro a b ha hb
    cases a with
    | nil => exact absurd (List.IsPrefix.length_le ha) (by simp)
    | cons x as =>
      cases b with
      | nil => exact absurd (List.IsPrefix.length_le hb) (by simp)
      | cons y bs =>
        obtain ⟨rfl, ha'⟩ := List.cons_prefix_cons.1 ha
        obtain ⟨rfl, hb'⟩ := List.cons_prefix_cons.1 hb
        rw [lcp2, if_pos rfl]
        exact List.cons_prefix_cons.2 ⟨rfl, ih as bs ha' hb'⟩

/-- The suffix fold of `_longest_common_suffix` shrinks the accumulator. -/
theorem foldl_lcp_prefix_acc (l : List String) :
    ∀ acc, (l.foldl (fun acc t => lcp2 acc t.data.reverse) acc) <+: acc := by
  induction l with
  | nil => intro acc; exact List.prefix_refl acc
  | cons t l ih =>
    intro acc
    exact (ih (lcp2 acc t.data.reverse)).trans (lcp2_prefix_left acc t.data.reverse)

/-- The suffix fold is a prefix of every processed (reversed) string. -/
theorem foldl_lcp_prefix_mem (l : List String) :
    ∀ acc s, s ∈ l → (l.foldl (fun acc t => lcp2 acc t.data.reverse) acc) <+: s.data.reverse := by
  induction l with
  | nil => intro acc s hs; cases hs
  | cons t l ih =>
    intro acc s hs
    rcases List.mem_cons.1 hs with rfl | hs'
    · exact (foldl_lcp_prefix_acc l (lcp2 acc s.data.reverse)).trans
        (lcp2_prefix_right acc s.data.reverse)
    · exact ih (lcp2 acc t.data.reverse) s hs'

/-- Any common prefix of the accumulator and of every processed (reversed)
string is a prefix of the suffix fold. -/
theorem prefix_foldl_lcp (l : List String) :
    ∀ acc t, t <+: acc → (∀ s ∈ l, t <+: s.data.reverse) →
      t <+: (l.foldl (fun acc t => lcp2 acc t.data.reverse) acc) := by
  induction l with
  | nil => intro acc t ht _; exact ht
  | cons x l ih =>
    intro acc t ht hall
    exact ih (lcp2 acc x.data.reverse) t
      (prefix_lcp2 t acc x.data.reverse ht (hall x (List.mem_cons_self _ _)))
      (fun s hs => hall s (List.mem_cons_of_mem _ hs))

/-- C4: acceptance predicate of clustering. The Boolean test accepts exactly
when the Simhash Hamming distance is at most 6 and, whenever both node counts
are positive, `min(size)/max(size) ≥ 0.85` (a zero size skips the ratio
check rather than rejecting); and every non-seed member of an emitted
cluster passed this test against the cluster's seed. -/
theorem cluster_acceptance_bounds :
    (∀ seed near : Cand, acceptPair seed near = true ↔
      simhashDistance seed.fp near.fp ≤ 6 ∧
      (0 < nodeSize seed.canon → 0 < nodeSize near.canon →
        (0.85 : ℚ) ≤ (min (nodeSize seed.canon) (nodeSize near.canon) : ℚ) /
          (max (nodeSize seed.canon) (nodeSize near.canon) : ℚ))) ∧
    (∀ (items : List (String × Cand)) (query : String → List String),
      ∀ c ∈ clusterCandidates items query, ∀ x ∈ c.tail,
        acceptPair (getItem items (c.headD "")) (getItem items x) = true) := by
  constructor
  · exact acceptPair_true_iff
  · intro items query c hc x hx
    obtain ⟨-, -, -, k, tail, rfl, hacc⟩ :=
      (clusterGo_spec items query (pySorted (items.map Prod.fst)) []).1 c hc
    exact hacc x hx

/-- C9 counterexample: for the titles "Home — Acme Inc." and
"About — Acme Inc." the detected shared suffix is not "Acme Inc." — the
character-level longest common suffix keeps the separator: " — Acme Inc.". -/
theorem shared_suffix_includes_separator :
    lcSuffix ["Home — Acme Inc.", "About — Acme Inc."] ≠ "Acme Inc." ∧
    lcSuffix ["Home — Acme Inc.", "About — Acme Inc."] = " — Acme Inc." :=
  ⟨by decide, by decide⟩

/-- C9 amended: the shared suffix is the longest character-level common
suffix of all the titles (computed as the common prefix of the reversed
strings): it is a suffix of every title and no common suffix is longer. Each
residual title is the title with that suffix cut off and surrounding " |-"
separator characters stripped. For "Home — Acme Inc." and "About — Acme Inc."
the detected suffix is " — Acme Inc." (separator included, not "Acme Inc.")
and the residual titles are "Home" and "About". -/
theorem longest_common_suffix_titles :
    (∀ ss : List String, ∀ s ∈ ss, (lcSuffix ss).data <:+ s.data) ∧
    (∀ (ss : List String) (t : String), ss ≠ [] → (∀ s ∈ ss, t.data <:+ s.data) →
      t.length ≤ (lcSuffix ss).length) ∧
    lcSuffix ["Home — Acme Inc.", "About — Acme Inc."] = " — Acme Inc." ∧
    residualTitle (lcSuffix ["Home — Acme Inc.", "About — Acme Inc."])
      "Home — Acme Inc." = "Home" ∧
    residualTitle (lcSuffix ["Home — Acme Inc.", "About — Acme Inc."])
      "About — Acme Inc." = "About" := by
  refine ⟨?_, ?_, by decide, by decide, by decide⟩
  · intro ss s hs
    match ss, hs with
    | s0 :: rest, hs =>
      show (List.foldl (fun acc t => lcp2 acc t.data.reverse) s0.data.reverse rest).reverse
          <:+ s.data
      rcases List.mem_cons.1 hs with rfl | hs'
      · have h2 := List.reverse_suffix.2 (foldl_lcp_prefix_acc rest s.data.reverse)
        simpa using h2
      · have h2 := List.reverse_suffix.2 (foldl_lcp_prefix_mem rest s0.data.reverse s hs')
        simpa using h2
  · intro ss t hne hall
    match ss, hne with
    | s0 :: rest, _ =>
      have ht : t.data.reverse <+:
          List.foldl (fun acc t => lcp2 acc t.data.reverse) s0.data.reverse rest := by
        refine prefix_foldl_lcp rest s0.data.reverse t.data.reverse ?_ ?_
        · exact List.reverse_prefix.2 (hall s0 (List.mem_cons_self _ _))
        · intro s hs
          exact List.reverse_prefix.2 (hall s (List.mem_cons_of_mem _ hs))
      have hlen := List.IsPrefix.length_le ht
      rw [List.length_reverse] at hlen
      show t.data.length ≤
        ((List.foldl (fun acc t => lcp2 acc t.data.reverse) s0.data.reverse rest).reverse).length
      rw [List.length_reverse]
      exact hlen

/-- Mapping an option-projection over copies of one value keeps the copies. -/
theorem filterMap_replicate_some {α β : Type} (f : α → Option β) (d : α) (h : β)
    (hf : f d = some h) : ∀ n, List.filterMap f (List.replicate n d) = List.replicate n h := by
  intro n
  induction n with
  | zero => rfl
  | succ k ih => rw [List.replicate_succ, List.filterMap_cons, hf, ih, List.replicate_succ]

/-- Anything in the accumulator and in the set being intersected with
survives the intersection fold. -/
theorem mem_foldl_filter (s : List String) (x : String) :
    ∀ (m : Nat) (acc : List String), x ∈ acc → x ∈ s →
      x ∈ (List.replicate m s).foldl (fun acc t => acc.filter (· ∈ t)) acc := by
  intro m
  induction m with
  | zero => intro acc hacc _; simpa using hacc
  | succ k ih =>
    intro acc hacc hs
    rw [List.replicate_succ, List.foldl_cons]
    exact ih _ (List.mem_filter.2 ⟨hacc, by simpa using hs⟩) hs

/-- With identical documents, the set intersection keeps every member. -/
theorem mem_interAll_replicate (s : List String) (n : Nat) (x : String) (hx : x ∈ s) :
    x ∈ interAll (List.replicate (n + 1) s) := by
  rw [List.replicate_succ, interAll]
  exact mem_foldl_filter s x n s hx hx

/-- A head holding only a charset meta. -/
def charsetHead : HeadM :=
  { title := none
    metas := [{ charset := some "utf-8", ser := "<meta charset=\"utf-8\"/>" }]
    links := []
    styles := []
    scripts := [] }

/-- A document whose head holds only a charset meta. -/
def charsetDoc : DocM :=
  { head := some charsetHead, body := none }

/-- C8 counterexample: a corpus of byte-identical documents containing a
charset meta emits that meta into neither common-head fragment — the claim's
"every meta element" fails (`if not m.get("charset")` excludes it from the
intersection). -/
theorem charset_meta_left_out :
    "<meta charset=\"utf-8\"/>" ∉ (extractHF [charsetDoc]).titleMetaLines ∧
    "<meta charset=\"utf-8\"/>" ∉ (extractHF [charsetDoc]).headCssLines :=
  ⟨by decide, by decide⟩

/-- C8 amended: for a corpus of copies of one document, the common-head
fragments together contain every non-charset meta, every link (stylesheet
links via `head-css.html`, the rest via `title-meta.html`), every style and
every head script that has a `src` or an inline body; and the common-footer
fragment contains, for every body-script source, a representative line that
is the serialization of a body script with that source. Charset metas and
head scripts with neither `src` nor body are excluded by the code (see the
counterexample). -/
theorem head_footer_roundtrip_amended (d : DocM) (n : Nat) :
    (∀ h, d.head = some h →
      (∀ m ∈ h.metas, charsetFalsy m = true →
        m.ser ∈ (extractHF (List.replicate (n + 1) d)).titleMetaLines) ∧
      (∀ l ∈ h.links,
        l.ser ∈ (extractHF (List.replicate (n + 1) d)).titleMetaLines ∨
        l.ser ∈ (extractHF (List.replicate (n + 1) d)).headCssLines) ∧
      (∀ st ∈ h.styles, st ∈ (extractHF (List.replicate (n + 1) d)).headCssLines) ∧
      (∀ sc ∈ h.scripts, scriptKept sc = true →
        sc.ser ∈ (extractHF (List.replicate (n + 1) d)).headCssLines)) ∧
    (∀ b, d.body = some b → ∀ fs ∈ b.scripts,
      repFooter (List.replicate (n + 1) d) fs.src ∈
        (extractHF (List.replicate (n + 1) d)).footerLines ∧
      ∃ g ∈ b.scripts, g.src = fs.src ∧
        repFooter (List.replicate (n + 1) d) fs.src = g.ser) := by
  constructor
  · intro h hh
    have hheads : hfHeads (List.replicate (n + 1) d) = List.replicate (n + 1) h :=
      filterMap_replicate_some DocM.head d h hh (n + 1)
    refine ⟨?_, ?_, ?_, ?_⟩
    · intro m hm hcf
      show m.ser ∈ hfTitleMetaLines (List.replicate (n + 1) d)
      unfold hfTitleMetaLines
      apply List.mem_cons_of_mem
      apply List.mem_append_left
      rw [hheads, List.map_replicate]
      unfold pySorted
      refine (List.mem_insertionSort strDataLe).2 ?_
      apply mem_interAll_replicate
      unfold metaSet
      rw [List.mem_dedup]
      exact List.mem_map.2 ⟨m, List.mem_filter.2 ⟨hm, hcf⟩, rfl⟩
    · intro l hl
      by_cases hrel : l.rel = ["stylesheet"]
      · right
        show l.ser ∈ hfHeadCssLines (List.replicate (n + 1) d)
        unfold hfHeadCssLines
        apply List.mem_append_left
        apply List.mem_append_left
        unfold hfCssFirst
        rw [List.head?_replicate]
        simp only [Nat.succ_ne_zero, if_neg, Nat.add_one_ne_zero, ite_false]
        rw [hh]
        exact List.mem_map.2 ⟨l, List.mem_filter.2 ⟨hl, by simp [hrel]⟩, rfl⟩
      · left
        show l.ser ∈ hfTitleMetaLines (List.replicate (n + 1) d)
        unfold hfTitleMetaLines
        apply List.mem_cons_of_mem
        apply List.mem_append_right
        rw [hheads, List.map_replicate]
        unfold pySorted
        refine (List.mem_insertionSort strDataLe).2 ?_
        apply mem_interAll_replicate
        unfold linkSet
        rw [List.mem_dedup]
        exact List.mem_map.2 ⟨l, List.mem_filter.2 ⟨hl, by simp [hrel]⟩, rfl⟩
    · intro st hst
      show st ∈ hfHeadCssLines (List.replicate (n + 1) d)
      unfold hfHeadCssLines
      apply List.mem_append_left
      apply List.mem_append_right
      rw [hheads, List.map_replicate]
      unfold pySorted
      refine (List.mem_insertionSort strDataLe).2 ?_
      apply mem_interAll_replicate
      unfold styleSet
      rw [List.mem_dedup]
      exact hst
    · intro sc hsc hkept
      show sc.ser ∈ hfHeadCssLines (List.replicate (n + 1) d)
      unfold hfHeadCssLines
      apply List.mem_append_right
      rw [hheads, List.map_replicate]
      unfold pySorted
      refine (List.mem_insertionSort strDataLe).2 ?_
      apply mem_interAll_replicate
      unfold headScriptSet
      rw [List.mem_dedup]
      exact List.mem_map.2 ⟨sc, List.mem_filter.2 ⟨hsc, hkept⟩, rfl⟩
  · intro b hb fs hfs
    have hbodies : (List.replicate (n + 1) d).filterMap DocM.body = List.replicate (n + 1) b :=
      filterMap_replicate_some DocM.body d b hb (n + 1)
    constructor
    · show repFooter (List.replicate (n + 1) d) fs.src ∈ hfFooterLines (List.replicate (n + 1) d)
      unfold hfFooterLines
      refine List.mem_map.2 ⟨fs.src, ?_, rfl⟩
      unfold hfCommonJs pySorted
      rw [hbodies, List.map_replicate]
      refine (List.mem_insertionSort strDataLe).2 ?_
      apply mem_interAll_replicate
      unfold srcSet
      rw [List.mem_dedup]
      exact List.mem_map.2 ⟨fs, hfs, rfl⟩
    · unfold repFooter
      rw [hbodies, List.map_replicate]
      have hmemflat : fs ∈ (List.replicate (n + 1) b.scripts).flatten :=
        List.mem_flatten.2 ⟨b.scripts, by
          rw [List.replicate_succ]; exact List.mem_cons_self _ _, hfs⟩
      have hfs' : fs ∈ (List.replicate (n + 1) b.scripts).flatten.filter
          fun s => s.src == fs.src :=
        List.mem_filter.2 ⟨hmemflat, by simp⟩
      have hne : (((List.replicate (n + 1) b.scripts).flatten.filter
          fun s => s.src == fs.src).map FScript.ser) ≠ [] := by
        simp only [ne_eq, List.map_eq_nil_iff]
        exact List.ne_nil_of_mem hfs'
      rw [List.getLastD_eq_getLast?]
      cases hlast : (((List.replicate (n + 1) b.scripts).flatten.filter
          fun s => s.src == fs.src).map FScript.ser).getLast? with
      | none => exact absurd (List.getLast?_eq_none_iff.1 hlast) hne
      | some x =>
        have hx := List.mem_of_getLast?_eq_some hlast
        obtain ⟨g, hg, hser⟩ := List.mem_map.1 hx
        obtain ⟨hgflat, hgsrc⟩ := List.mem_filter.1 hg
        obtain ⟨l', hl', hgl⟩ := List.mem_flatten.1 hgflat
        have : l' = b.scripts := List.eq_of_mem_replicate hl'
        subst this
        refine ⟨g, hgl, by simpa using hgsrc, ?_⟩
        simp [hser]

/-! ## Idempotence of the canonicalizer -/

/-- A whitespace token: nonempty and free of whitespace characters. -/
def wsTok (t : List Char) : Prop :=
  t ≠ [] ∧ ∀ c ∈ t, isWsChar c = false

/-- Every token produced by `wsTokens` is a token. -/
theorem wsTokens_tok : ∀ l : List Char, ∀ t ∈ wsTokens l, wsTok t := by
  intro l
  induction l with
  | nil => intro t ht; cases ht
  | cons c cs ih =>
    intro t ht
    rw [wsTokens] at ht
    by_cases hc : isWsChar c
    · rw [if_pos hc] at ht
      exact ih t ht
    · rw [if_neg hc] at ht
      have hc' : isWsChar c = false := Bool.of_not_eq_true hc
      cases cs with
      | nil =>
        rw [wsGlue] at ht
        simp only [List.mem_singleton] at ht
        subst ht
        exact ⟨by simp, by simpa using hc'⟩
      | cons d cs' =>
        rw [wsGlue] at ht
        by_cases hd : isWsChar d
        · rw [if_pos hd] at ht
          rcases List.mem_cons.1 ht with rfl | ht'
          · exact ⟨by simp, by simpa using hc'⟩
          · exact ih t ht'
        · rw [if_neg hd] at ht
          cases hw : wsTokens (d :: cs') with
          | nil =>
            rw [hw, wsGlue2] at ht
            simp only [List.mem_singleton] at ht
            subst ht
            exact ⟨by simp, by simpa using hc'⟩
          | cons t0 ts =>
            rw [hw, wsGlue2] at ht
            rcases List.mem_cons.1 ht with rfl | ht'
            · have h0 : wsTok t0 := ih t0 (by rw [hw]; exact List.mem_cons_self _ _)
              refine ⟨by simp, ?_⟩
              intro x hx
              rcases List.mem_cons.1 hx with rfl | hx'
              · simpa using hc'
              · exact h0.2 x hx'
            · exact ih t (by rw [hw]; exact List.mem_cons_of_mem _ ht')

/-- `wsTokens` of a single token is that token alone. -/
theorem wsTokens_single : ∀ t : List Char, wsTok t → wsTokens t = [t] := by
  intro t
  induction t with
  | nil => intro h; exact absurd rfl h.1
  | cons c t' ih =>
    intro h
    have hc : isWsChar c = false := h.2 c (List.mem_cons_self _ _)
    rw [wsTokens, if_neg (by simp [hc])]
    cases t' with
    | nil => rw [wsGlue]
    | cons d t'' =>
      have hd : isWsChar d = false := h.2 d (List.mem_cons_of_mem _ (List.mem_cons_self _ _))
      rw [wsGlue, if_neg (by simp [hd])]
      have ht' : wsTokens (d :: t'') = [d :: t''] := by
        refine ih ⟨by simp, ?_⟩
        intro x hx
        exact h.2 x (List.mem_cons_of_mem _ hx)
      rw [ht', wsGlue2]

/-- `wsTokens` of a token, a space, and a remainder: the token splits off. -/
theorem wsTokens_tok_space : ∀ t r : List Char, wsTok t →
    wsTokens (t ++ ' ' :: r) = t :: wsTokens r := by
  intro t
  induction t with
  | nil => intro r h; exact absurd rfl h.1
  | cons c t' ih =>
    intro r h
    have hc : isWsChar c = false := h.2 c (List.mem_cons_self _ _)
    rw [List.cons_append, wsTokens, if_neg (by simp [hc])]
    cases t' with
    | nil =>
      rw [List.nil_append, wsGlue, if_pos (by simp [isWsChar])]
      rw [wsTokens, if_pos (by simp [isWsChar])]
    | cons d t'' =>
      have hd : isWsChar d = false := h.2 d (List.mem_cons_of_mem _ (List.mem_cons_self _ _))
      rw [List.cons_append, wsGlue, if_neg (by simp [hd])]
      have ht' : wsTokens ((d :: t'') ++ ' ' :: r) = (d :: t'') :: wsTokens r := by
        refine ih r ⟨by simp, ?_⟩
        intro x hx
        exact h.2 x (List.mem_cons_of_mem _ hx)
      rw [List.cons_append] at ht'
      rw [ht', wsGlue2]

/-- `wsTokens` recovers the tokens from their single-space join. -/
theorem wsTokens_joinSp : ∀ ts : List (List Char), (∀ t ∈ ts, wsTok t) →
    wsTokens (joinSp ts) = ts := by
  intro ts
  induction ts with
  | nil => intro _; rfl
  | cons t ts' ih =>
    intro hall
    cases ts' with
    | nil =>
      rw [joinSp]
      exact wsTokens_single t (hall t (List.mem_cons_self _ _))
    | cons t' ts'' =>
      have hjoin : joinSp (t :: t' :: ts'') = t ++ ' ' :: joinSp (t' :: ts'') := rfl
      rw [hjoin, wsTokens_tok_space t _ (hall t (List.mem_cons_self _ _))]
      rw [ih fun x hx => hall x (List.mem_cons_of_mem _ hx)]

/-- Whitespace collapsing is idempotent (character-list form). -/
theorem normWsL_idem (l : List Char) : normWsL (normWsL l) = normWsL l := by
  unfold normWsL
  rw [wsTokens_joinSp (wsTokens l) (wsTokens_tok l)]

/-- Whitespace collapsing is idempotent (string form). -/
theorem normWs_idem (s : String) : normWs (normWs s) = normWs s := by
  unfold normWs
  exact congrArg String.mk (normWsL_idem s.data)

/-- The attribute chain preserves the attribute's name. -/
theorem chainEntry_key (kv kv' : String × AVal) (h : chainEntry kv = some kv') :
    kv'.1 = kv.1 := by
  unfold chainEntry at h
  split_ifs at h with h1 h2 h3
  · cases h
    rfl
  · cases h
    rfl

/-- The attribute chain is pointwise idempotent on survivors. -/
theorem chainEntry_idem (kv kv' : String × AVal) (h : chainEntry kv = some kv') :
    chainEntry kv' = some kv' := by
  unfold chainEntry at h
  split_ifs at h with h1 h2 h3
  · cases h
    rw [Bool.and_eq_true] at h1
    unfold chainEntry
    rw [if_pos (by simp only [Bool.and_eq_true]; exact ⟨h1.1, by rfl⟩)]
  · cases h
    unfold chainEntry
    rw [if_neg (by exact h1), if_neg (by exact h2), if_neg (by exact h3)]

/-- A surviving attribute never carries one of the unconditionally removed
names. -/
theorem chainEntry_not_volatile (kv kv' : String × AVal) (h : chainEntry kv = some kv') :
    kv'.1 ≠ "id" ∧ kv'.1 ≠ "aria-controls" ∧ kv'.1 ≠ "aria-expanded" ∧
      kv'.1 ≠ "data-bs-toggle" := by
  unfold chainEntry at h
  split_ifs at h with h1 h2 h3
  · cases h
    rw [Bool.and_eq_true, Bool.or_eq_true] at h1
    rcases h1.1 with h1' | h1'
    · rw [beq_iff_eq] at h1'
      rw [h1']
      refine ⟨by decide, by decide, by decide, by decide⟩
    · rw [beq_iff_eq] at h1'
      rw [h1']
      refine ⟨by decide, by decide, by decide, by decide⟩
  · cases h
    simp only [Bool.or_eq_true, beq_iff_eq, not_or] at h2
    exact ⟨h2.1.1.1, h2.1.1.2, h2.1.2, h2.2⟩

/-- A `class` attribute passes through the chain untouched. -/
theorem chainEntry_class (v : AVal) : chainEntry ("class", v) = some ("class", v) := by
  simp [chainEntry, dropAttrsList, keepAttrsList, isDataAttr]

/-- The attribute chain is idempotent on attribute lists. -/
theorem chainStep_idem (l : List (String × AVal)) : chainStep (chainStep l) = chainStep l := by
  unfold chainStep
  induction l with
  | nil => rfl
  | cons kv l ih =>
    rw [List.filterMap_cons]
    cases h : chainEntry kv with
    | none => exact ih
    | some kv' =>
      rw [List.filterMap_cons, chainEntry_idem kv kv' h, ih]

/-- The chain does not change the first `class` binding. -/
theorem lookup_chainStep (l : List (String × AVal)) :
    (chainStep l).lookup "class" = l.lookup "class" := by
  unfold chainStep
  induction l with
  | nil => rfl
  | cons kv l ih =>
    obtain ⟨k0, v0⟩ := kv
    rw [List.filterMap_cons]
    by_cases hk : k0 = "class"
    · subst hk
      rw [chainEntry_class v0]
      rw [List.lookup_cons, List.lookup_cons]
      rfl
    · have hbeq : (("class" : String) == k0) = false :=
        beq_eq_false_iff_ne.2 fun he => hk he.symm
      cases h : chainEntry (k0, v0) with
      | none =>
        simp only [List.lookup_cons, hbeq]
        exact ih
      | some kv' =>
        obtain ⟨k1, v1⟩ := kv'
        have hk' : k1 = k0 := chainEntry_key (k0, v0) (k1, v1) h
        subst hk'
        rw [List.lookup_cons, List.lookup_cons]
        simp only [hbeq]
        exact ih

/-- Deleting an attribute removes its binding. -/
theorem lookup_delAttr (k : String) (l : List (String × AVal)) :
    (delAttr k l).lookup k = none := by
  unfold delAttr
  induction l with
  | nil => rfl
  | cons kv l ih =>
    obtain ⟨k0, v0⟩ := kv
    rw [List.filter_cons]
    by_cases hk : k0 = k
    · rw [if_neg (by simp [hk])]
      exact ih
    · have hbeq : (k == k0) = false := beq_eq_false_iff_ne.2 fun he => hk he.symm
      rw [if_pos (by simpa using hk)]
      simp only [List.lookup_cons, hbeq]
      exact ih

/-- Setting an attribute rewrites its binding when present. -/
theorem lookup_setAttr (k : String) (v w : AVal) (l : List (String × AVal))
    (h : l.lookup k = some w) : (setAttr k v l).lookup k = some v := by
  unfold setAttr
  induction l with
  | nil => cases h
  | cons kv l ih =>
    obtain ⟨k0, v0⟩ := kv
    rw [List.lookup_cons] at h
    rw [List.map_cons]
    by_cases hk : k0 = k
    · have hbeq : (k == k0) = true := by simpa using hk.symm
      rw [if_pos (by simpa using hk)]
      simp only [List.lookup_cons, hbeq]
    · have hbeq : (k == k0) = false := beq_eq_false_iff_ne.2 fun he => hk he.symm
      rw [if_neg (by simpa using hk)]
      simp only [List.lookup_cons, hbeq]
      simp only [hbeq] at h
      exact ih h

/-- After `setAttr`, every binding of the name holds the new value. -/
theorem setAttr_uniform (k : String) (v : AVal) (l : List (String × AVal)) :
    ∀ kv ∈ setAttr k v l, kv.1 = k → kv.2 = v := by
  unfold setAttr
  intro kv hkv hk
  obtain ⟨kv0, hkv0, heq⟩ := List.mem_map.1 hkv
  by_cases h0 : kv0.1 = k
  · rw [if_pos (by simpa using h0)] at heq
    rw [← heq]
  · rw [if_neg (by simpa using h0)] at heq
    subst heq
    exact absurd hk h0

/-- `setAttr` is the identity when every binding already holds the value. -/
theorem setAttr_id (k : String) (v : AVal) (l : List (String × AVal))
    (h : ∀ kv ∈ l, kv.1 = k → kv.2 = v) : setAttr k v l = l := by
  unfold setAttr
  induction l with
  | nil => rfl
  | cons kv l ih =>
    rw [List.map_cons]
    by_cases hk : kv.1 = k
    · rw [if_pos (by simpa using hk)]
      rw [ih fun x hx => h x (List.mem_cons_of_mem _ hx)]
      have := h kv (List.mem_cons_self _ _) hk
      cases kv
      simp_all
    · rw [if_neg (by simpa using hk)]
      rw [ih fun x hx => h x (List.mem_cons_of_mem _ hx)]

/-- `classStep` unfolding: no `class` attribute. -/
theorem classStep_none (a : List (String × AVal)) (h : a.lookup "class" = none) :
    classStep a = a := by
  unfold classStep
  rw [h]

/-- `classStep` unfolding: a string-valued `class` attribute is left alone. -/
theorem classStep_str (a : List (String × AVal)) (v : String)
    (h : a.lookup "class" = some (.s v)) : classStep a = a := by
  unfold classStep
  rw [h]

/-- `classStep` unfolding: a token-list `class` attribute. -/
theorem classStep_list (a : List (String × AVal)) (vs : List String)
    (h : a.lookup "class" = some (.l vs)) :
    classStep a =
      if (pySorted (vs.filter keepClassToken)).isEmpty then delAttr "class" a
      else setAttr "class" (.l (pySorted (vs.filter keepClassToken))) a := by
  unfold classStep
  rw [h]

/-- Filtering the already filtered, sorted token list changes nothing. -/
theorem pySorted_filter_fix (vs : List String) :
    (pySorted (vs.filter keepClassToken)).filter keepClassToken =
      pySorted (vs.filter keepClassToken) := by
  refine List.filter_eq_self.2 fun x hx => ?_
  have hx' : x ∈ vs.filter keepClassToken := by
    unfold pySorted at hx
    exact (List.mem_insertionSort strDataLe).1 hx
  exact (List.mem_filter.1 hx').2

/-- Sorting a sorted list changes nothing. -/
theorem pySorted_idem (l : List String) : pySorted (pySorted l) = pySorted l := by
  unfold pySorted
  exact List.Sorted.insertionSort_eq (List.sorted_insertionSort strDataLe l)

/-- The per-element attribute processing of `_canonicalize` is idempotent. -/
theorem canonElAttrs_idem (a : List (String × AVal)) :
    canonElAttrs (canonElAttrs a) = canonElAttrs a := by
  unfold canonElAttrs
  cases hA : a.lookup "class" with
  | none =>
    rw [classStep_none a hA]
    rw [classStep_none _ (by rw [lookup_chainStep]; exact hA)]
    exact chainStep_idem a
  | some w =>
    cases w with
    | s v =>
      rw [classStep_str a v hA]
      rw [classStep_str _ v (by rw [lookup_chainStep]; exact hA)]
      exact chainStep_idem a
    | l vs =>
      rw [classStep_list a vs hA]
      by_cases hemp : (pySorted (vs.filter keepClassToken)).isEmpty
      · rw [if_pos hemp]
        rw [classStep_none _ (by rw [lookup_chainStep]; exact lookup_delAttr "class" a)]
        exact chainStep_idem _
      · rw [if_neg hemp]
        have hlook : (chainStep (setAttr "class" (.l (pySorted (vs.filter keepClassToken))) a)).lookup "class"
            = some (.l (pySorted (vs.filter keepClassToken))) := by
          rw [lookup_chainStep]
          exact lookup_setAttr "class" _ (.l vs) a hA
        rw [classStep_list _ _ hlook]
        rw [pySorted_filter_fix vs, pySorted_idem]
        rw [if_neg hemp]
        have hid : setAttr "class" (.l (pySorted (vs.filter keepClassToken)))
            (chainStep (setAttr "class" (.l (pySorted (vs.filter keepClassToken))) a)) =
            chainStep (setAttr "class" (.l (pySorted (vs.filter keepClassToken))) a) := by
          apply setAttr_id
          intro kv hkv hk
          unfold chainStep at hkv
          obtain ⟨kv0, hkv0, hce⟩ := List.mem_filterMap.1 hkv
          obtain ⟨k0, v0⟩ := kv0
          have hk0 : k0 = "class" := by
            have hkey := chainEntry_key (k0, v0) kv hce
            simp only [] at hkey
            rw [← hkey]
            exact hk
          subst hk0
          have hv0 : v0 = .l (pySorted (vs.filter keepClassToken)) :=
            setAttr_uniform "class" _ a ("class", v0) hkv0 rfl
          subst hv0
          rw [chainEntry_class] at hce
          cases hce
          rfl
        rw [hid]
        exact chainStep_idem _

/-- The attribute list of a node (empty for non-elements). -/
def elemAttrs : HNode → List (String × AVal)
  | .elem _ a _ => a
  | _ => []

mutual

/-- Every text-node string of a subtree, in document order. -/
def allTextsN : HNode → List String
  | .elem _ _ cs => allTextsL cs
  | .text s => [s]
  | .comment _ => []

def allTextsL : List HNode → List String
  | [] => []
  | n :: rest => allTextsN n ++ allTextsL rest

end

mutual

/-- Every comment-node string of a subtree, in document order. -/
def allCommentsN : HNode → List String
  | .elem _ _ cs => allCommentsL cs
  | .comment s => [s]
  | _ => []

def allCommentsL : List HNode → List String
  | [] => []
  | n :: rest => allCommentsN n ++ allCommentsL rest

end

/-- Attribute lists free of the four unconditionally removed names. -/
def noVolatile (a : List (String × AVal)) : Prop :=
  ∀ kv ∈ a, kv.1 ≠ "id" ∧ kv.1 ≠ "aria-controls" ∧ kv.1 ≠ "aria-expanded" ∧
    kv.1 ≠ "data-bs-toggle"

/-- The chain output never carries a volatile name. -/
theorem canonElAttrs_noVolatile (a : List (String × AVal)) : noVolatile (canonElAttrs a) := by
  intro kv hkv
  unfold canonElAttrs chainStep at hkv
  obtain ⟨kv0, _, hce⟩ := List.mem_filterMap.1 hkv
  exact chainEntry_not_volatile kv0 kv hce

/-- Unfolding helpers (all definitional). -/
theorem removeCommentsL_comment (s : String) (rest : List HNode) :
    removeCommentsL (.comment s :: rest) = removeCommentsL rest := rfl

theorem removeCommentsL_text (s : String) (rest : List HNode) :
    removeCommentsL (.text s :: rest) = .text s :: removeCommentsL rest := rfl

theorem removeCommentsL_elem (t : String) (a : List (String × AVal)) (cs rest : List HNode) :
    removeCommentsL (.elem t a cs :: rest) =
      .elem t a (removeCommentsL cs) :: removeCommentsL rest := rfl

theorem normTextsL_text (s : String) (rest : List HNode) :
    normTextsL (.text s :: rest) =
      if normWs s == "" then normTextsL rest else .text (normWs s) :: normTextsL rest := rfl

theorem normTextsL_comment (s : String) (rest : List HNode) :
    normTextsL (.comment s :: rest) = .comment s :: normTextsL rest := rfl

theorem normTextsL_elem (t : String) (a : List (String × AVal)) (cs rest : List HNode) :
    normTextsL (.elem t a cs :: rest) = .elem t a (normTextsL cs) :: normTextsL rest := rfl

/-- The attribute pass establishes any property the chain guarantees
(list form, from pointwise facts for the members). -/
theorem procAttrsL_estab_aux (Q : List (String × AVal) → Prop) (cs : List HNode)
    (hcs : ∀ c ∈ cs, ∀ e ∈ allElemsN (procAttrsN c), Q (elemAttrs e)) :
    ∀ e ∈ allElemsL (procAttrsL cs), Q (elemAttrs e) := by
  induction cs with
  | nil => intro e he; cases he
  | cons c rest ih =>
    intro e he
    rw [procAttrsL, allElemsL] at he
    rcases List.mem_append.1 he with he' | he'
    · exact hcs c (List.mem_cons_self _ _) e he'
    · exact ih (fun x hx => hcs x (List.mem_cons_of_mem _ hx)) e he'

/-- The attribute pass establishes any property the chain guarantees. -/
theorem procAttrsN_estab (Q : List (String × AVal) → Prop) (hQ : ∀ a, Q (canonElAttrs a)) :
    ∀ n : HNode, ∀ e ∈ allElemsN (procAttrsN n), Q (elemAttrs e) := by
  intro n
  induction n using HNode.ind with
  | h1 s => intro e he; cases he
  | h2 s => intro e he; cases he
  | h3 t a cs ih =>
    intro e he
    rw [procAttrsN, allElemsN] at he
    rcases List.mem_cons.1 he with rfl | he'
    · exact hQ a
    · exact procAttrsL_estab_aux Q cs ih e he'

/-- Text normalization does not touch attributes (list form). -/
theorem normTextsL_attrs_aux (Q : List (String × AVal) → Prop) (cs : List HNode)
    (hcs : ∀ c ∈ cs, (∀ e ∈ allElemsN c, Q (elemAttrs e)) →
      ∀ e ∈ allElemsN (normTextsN c), Q (elemAttrs e))
    (h : ∀ e ∈ allElemsL cs, Q (elemAttrs e)) :
    ∀ e ∈ allElemsL (normTextsL cs), Q (elemAttrs e) := by
  induction cs with
  | nil => intro e he; cases he
  | cons c rest ih =>
    have hrest : ∀ e ∈ allElemsL rest, Q (elemAttrs e) := by
      intro e he
      exact h e (by rw [allElemsL]; exact List.mem_append_right _ he)
    have hihrest : ∀ e ∈ allElemsL (normTextsL rest), Q (elemAttrs e) :=
      ih (fun x hx => hcs x (List.mem_cons_of_mem _ hx)) hrest
    intro e he
    cases c with
    | text s =>
      rw [normTextsL_text] at he
      by_cases hws : normWs s == ""
      · rw [if_pos hws] at he
        exact hihrest e he
      · rw [if_neg hws, allElemsL] at he
        rcases List.mem_append.1 he with he' | he'
        · cases he'
        · exact hihrest e he'
    | comment s =>
      rw [normTextsL_comment, allElemsL] at he
      rcases List.mem_append.1 he with he' | he'
      · cases he'
      · exact hihrest e he'
    | elem t a cs' =>
      rw [normTextsL_elem] at he
      rw [allElemsL] at he
      rcases List.mem_append.1 he with he' | he'
      · refine hcs _ (List.mem_cons_self _ _) ?_ e ?_
        · intro x hx
          exact h x (by rw [allElemsL]; exact List.mem_append_left _ hx)
        · exact he'
      · exact hihrest e he'

/-- Text normalization does not touch attributes. -/
theorem normTextsN_attrs (Q : List (String × AVal) → Prop) :
    ∀ n : HNode, (∀ e ∈ allElemsN n, Q (elemAttrs e)) →
      ∀ e ∈ allElemsN (normTextsN n), Q (elemAttrs e) := by
  intro n
  induction n using HNode.ind with
  | h1 s => intro _ e he; cases he
  | h2 s => intro _ e he; cases he
  | h3 t a cs ih =>
    intro h e he
    rw [normTextsN, allElemsN] at he
    rcases List.mem_cons.1 he with rfl | he'
    · have hhead := h (.elem t a cs) (by rw [allElemsN]; exact List.mem_cons_self _ _)
      exact hhead
    · refine normTextsL_attrs_aux Q cs ih ?_ e he'
      intro x hx
      exact h x (by rw [allElemsN]; exact List.mem_cons_of_mem _ hx)

/-- Attribute names are the keys of the attribute list. -/
theorem attrKeys_elemAttrs (e : HNode) : attrKeys e = (elemAttrs e).map Prod.fst := by
  cases e <;> rfl

/-- C6 counterexample: canonicalization removes `id` from descendants but not
from the root — the attribute pass runs over `root.find_all(True)`, which
yields only descendants. The canonical form of a `nav` whose root carries an
`id` still carries that `id`. -/
theorem canonical_root_keeps_id :
    canonicalize (.elem "nav" [("id", .s "main")]
        [.elem "ul" [("id", .s "u"), ("aria-expanded", .s "true")] []]) =
      some (.elem "nav" [("id", .s "main")] [.elem "ul" [] []]) ∧
    "id" ∈ attrKeys (.elem "nav" [("id", .s "main")] [.elem "ul" [] []]) :=
  ⟨rfl, by decide⟩

/-- C6 amended: in the canonical form, every element strictly below the root
carries none of `id`, `aria-controls`, `aria-expanded`, `data-bs-toggle`;
the root's own attributes are left exactly as they were (the counterexample
shows the root is not stripped). -/
theorem canonical_descendants_lack_volatile_attrs (x r : HNode)
    (h : canonicalize x = some r) :
    (∀ e ∈ elemsBelow r, "id" ∉ attrKeys e ∧ "aria-controls" ∉ attrKeys e ∧
      "aria-expanded" ∉ attrKeys e ∧ "data-bs-toggle" ∉ attrKeys e) ∧
    attrKeys r = attrKeys x := by
  cases x with
  | text s => cases h
  | comment s => cases h
  | elem t a cs =>
    rw [show canonicalize (.elem t a cs) =
      some (.elem t a (normTextsL (procAttrsL (removeCommentsL
        (mergeTextsL cs))))) from rfl] at h
    cases h
    constructor
    · intro e he
      have hvol : noVolatile (elemAttrs e) := by
        refine normTextsL_attrs_aux noVolatile _
          (fun c _ => normTextsN_attrs noVolatile c) ?_ e he
        intro e' he'
        exact procAttrsL_estab_aux noVolatile _
          (fun c _ => procAttrsN_estab noVolatile canonElAttrs_noVolatile c) e' he'
      rw [attrKeys_elemAttrs]
      refine ⟨?_, ?_, ?_, ?_⟩ <;>
        · intro hmem
          obtain ⟨kv, hkv, hfst⟩ := List.mem_map.1 hmem
          have hv := hvol kv hkv
          first
          | exact hv.1 hfst
          | exact hv.2.1 hfst
          | exact hv.2.2.1 hfst
          | exact hv.2.2.2 hfst
    · rfl

/-- C6 witness: at a concrete two-level tree, the canonical form's descendant
lacks the four attributes and the root's attributes are untouched. -/
theorem canonical_descendants_lack_volatile_attrs_witness :
    (∀ e ∈ elemsBelow (HNode.elem "nav" [("id", .s "main")] [.elem "ul" [] []]),
      "id" ∉ attrKeys e ∧ "aria-controls" ∉ attrKeys e ∧
      "aria-expanded" ∉ attrKeys e ∧ "data-bs-toggle" ∉ attrKeys e) ∧
    attrKeys (HNode.elem "nav" [("id", .s "main")] [.elem "ul" [] []]) =
      attrKeys (HNode.elem "nav" [("id", .s "main")]
        [.elem "ul" [("id", .s "u"), ("aria-expanded", .s "true")] []]) :=
  canonical_descendants_lack_volatile_attrs
    (.elem "nav" [("id", .s "main")]
      [.elem "ul" [("id", .s "u"), ("aria-expanded", .s "true")] []])
    (.elem "nav" [("id", .s "main")] [.elem "ul" [] []]) rfl

/-- The comment pass leaves no comment below a processed member (list form). -/
theorem removeCommentsL_clean_aux (cs : List HNode)
    (hcs : ∀ c ∈ cs, (∀ s, c ≠ .comment s) → allCommentsN (removeCommentsN c) = []) :
    allCommentsL (removeCommentsL cs) = [] := by
  induction cs with
  | nil => rfl
  | cons c rest ih =>
    have ihrest := ih fun x hx => hcs x (List.mem_cons_of_mem _ hx)
    cases c with
    | text s =>
      show allCommentsN (.text s) ++ allCommentsL (removeCommentsL rest) = []
      rw [show allCommentsN (.text s) = [] from rfl, List.nil_append]
      exact ihrest
    | comment s =>
      show allCommentsL (removeCommentsL rest) = []
      exact ihrest
    | elem t a cs' =>
      show allCommentsN (removeCommentsN (.elem t a cs')) ++
        allCommentsL (removeCommentsL rest) = []
      rw [hcs _ (List.mem_cons_self _ _) (fun s h => by cases h), List.nil_append]
      exact ihrest

/-- The comment pass leaves no comment in a non-comment node. -/
theorem removeCommentsN_clean : ∀ n : HNode, (∀ s, n ≠ .comment s) →
    allCommentsN (removeCommentsN n) = [] := by
  intro n
  induction n using HNode.ind with
  | h1 s => intro _; rfl
  | h2 s => intro h; exact absurd rfl (h s)
  | h3 t a cs ih =>
    intro _
    show allCommentsL (removeCommentsL cs) = []
    exact removeCommentsL_clean_aux cs ih

/-- The attribute pass does not touch comments (list form). -/
theorem procAttrsL_comments_aux (cs : List HNode)
    (hcs : ∀ c ∈ cs, allCommentsN (procAttrsN c) = allCommentsN c) :
    allCommentsL (procAttrsL cs) = allCommentsL cs := by
  induction cs with
  | nil => rfl
  | cons c rest ih =>
    show allCommentsN (procAttrsN c) ++ allCommentsL (procAttrsL rest) =
      allCommentsN c ++ allCommentsL rest
    rw [hcs c (List.mem_cons_self _ _), ih fun x hx => hcs x (List.mem_cons_of_mem _ hx)]

/-- The attribute pass does not touch comments. -/
theorem procAttrsN_comments : ∀ n : HNode, allCommentsN (procAttrsN n) = allCommentsN n := by
  intro n
  induction n using HNode.ind with
  | h1 s => rfl
  | h2 s => rfl
  | h3 t a cs ih =>
    show allCommentsL (procAttrsL cs) = allCommentsL cs
    exact procAttrsL_comments_aux cs ih

/-- The text pass does not touch comments (list form). -/
theorem normTextsL_comments_aux (cs : List HNode)
    (hcs : ∀ c ∈ cs, allCommentsN (normTextsN c) = allCommentsN c) :
    allCommentsL (normTextsL cs) = allCommentsL cs := by
  induction cs with
  | nil => rfl
  | cons c rest ih =>
    have ihrest := ih fun x hx => hcs x (List.mem_cons_of_mem _ hx)
    cases c with
    | text s =>
      rw [normTextsL_text]
      by_cases hws : normWs s == ""
      · rw [if_pos hws, ihrest]
        show allCommentsL rest = allCommentsN (.text s) ++ allCommentsL rest
        rw [show allCommentsN (.text s) = [] from rfl, List.nil_append]
      · rw [if_neg hws]
        show allCommentsN (.text (normWs s)) ++ allCommentsL (normTextsL rest) =
          allCommentsN (.text s) ++ allCommentsL rest
        rw [show allCommentsN (.text (normWs s)) = [] from rfl,
          show allCommentsN (.text s) = [] from rfl, ihrest]
    | comment s =>
      show allCommentsN (.comment s) ++ allCommentsL (normTextsL rest) =
        allCommentsN (.comment s) ++ allCommentsL rest
      rw [ihrest]
    | elem t a cs' =>
      show allCommentsN (normTextsN (.elem t a cs')) ++ allCommentsL (normTextsL rest) =
        allCommentsN (.elem t a cs') ++ allCommentsL rest
      rw [hcs _ (List.mem_cons_self _ _), ihrest]

/-- The text pass does not touch comments. -/
theorem normTextsN_comments : ∀ n : HNode, allCommentsN (normTextsN n) = allCommentsN n := by
  intro n
  induction n using HNode.ind with
  | h1 s => rfl
  | h2 s => rfl
  | h3 t a cs ih =>
    show allCommentsL (normTextsL cs) = allCommentsL cs
    exact normTextsL_comments_aux cs ih

/-- The comment pass is the identity on comment-free lists. -/
theorem removeCommentsL_id_aux (cs : List HNode)
    (hcs : ∀ c ∈ cs, allCommentsN c = [] → removeCommentsN c = c)
    (h : allCommentsL cs = []) : removeCommentsL cs = cs := by
  induction cs with
  | nil => rfl
  | cons c rest ih =>
    rw [allCommentsL] at h
    obtain ⟨h1, h2⟩ := List.append_eq_nil.1 h
    have ihrest := ih (fun x hx => hcs x (List.mem_cons_of_mem _ hx)) h2
    cases c with
    | text s =>
      rw [removeCommentsL_text, ihrest]
    | comment s =>
      exact absurd h1 (by simp [allCommentsN])
    | elem t a cs' =>
      show removeCommentsN (.elem t a cs') :: removeCommentsL rest = _
      rw [hcs _ (List.mem_cons_self _ _) h1, ihrest]

/-- The comment pass is the identity on comment-free nodes. -/
theorem removeCommentsN_id : ∀ n : HNode, allCommentsN n = [] → removeCommentsN n = n := by
  intro n
  induction n using HNode.ind with
  | h1 s => intro _; rfl
  | h2 s => intro h; exact absurd h (by simp [allCommentsN])
  | h3 t a cs ih =>
    intro h
    show HNode.elem t a (removeCommentsL cs) = .elem t a cs
    rw [removeCommentsL_id_aux cs ih h]

/-- The attribute pass is the identity when every element is already
canonical (list form). -/
theorem procAttrsL_id_aux (cs : List HNode)
    (hcs : ∀ c ∈ cs, (∀ e ∈ allElemsN c, canonElAttrs (elemAttrs e) = elemAttrs e) →
      procAttrsN c = c)
    (h : ∀ e ∈ allElemsL cs, canonElAttrs (elemAttrs e) = elemAttrs e) :
    procAttrsL cs = cs := by
  induction cs with
  | nil => rfl
  | cons c rest ih =>
    have hc : procAttrsN c = c := by
      refine hcs c (List.mem_cons_self _ _) fun e he => ?_
      exact h e (by rw [allElemsL]; exact List.mem_append_left _ he)
    have ihrest : procAttrsL rest = rest := by
      refine ih (fun x hx => hcs x (List.mem_cons_of_mem _ hx)) fun e he => ?_
      exact h e (by rw [allElemsL]; exact List.mem_append_right _ he)
    rw [procAttrsL, hc, ihrest]

/-- The attribute pass is the identity when every element is already
canonical. -/
theorem procAttrsN_id : ∀ n : HNode,
    (∀ e ∈ allElemsN n, canonElAttrs (elemAttrs e) = elemAttrs e) → procAttrsN n = n := by
  intro n
  induction n using HNode.ind with
  | h1 s => intro _; rfl
  | h2 s => intro _; rfl
  | h3 t a cs ih =>
    intro h
    have ha : canonElAttrs a = a :=
      h (.elem t a cs) (by rw [allElemsN]; exact List.mem_cons_self _ _)
    have hcs' : procAttrsL cs = cs := by
      refine procAttrsL_id_aux cs ih fun e he => ?_
      exact h e (by rw [allElemsN]; exact List.mem_cons_of_mem _ he)
    show HNode.elem t (canonElAttrs a) (procAttrsL cs) = .elem t a cs
    rw [ha, hcs']

/-- The text pass leaves only normalized, non-empty texts (list form). -/
theorem normTextsL_textsOK_aux (cs : List HNode)
    (hcs : ∀ c ∈ cs, (∀ s, c ≠ .text s) →
      ∀ x ∈ allTextsN (normTextsN c), normWs x = x ∧ x ≠ "") :
    ∀ x ∈ allTextsL (normTextsL cs), normWs x = x ∧ x ≠ "" := by
  induction cs with
  | nil => intro x hx; cases hx
  | cons c rest ih =>
    have ihrest := ih fun x hx => hcs x (List.mem_cons_of_mem _ hx)
    intro x hx
    cases c with
    | text s =>
      rw [normTextsL_text] at hx
      by_cases hws : normWs s == ""
      · rw [if_pos hws] at hx
        exact ihrest x hx
      · rw [if_neg hws] at hx
        have hx' : x ∈ allTextsN (.text (normWs s)) ++ allTextsL (normTextsL rest) := hx
        rcases List.mem_append.1 hx' with hx'' | hx''
        · simp only [allTextsN, List.mem_singleton] at hx''
          subst hx''
          refine ⟨normWs_idem s, fun he => hws ?_⟩
          rw [show ((normWs s == "") = true) = (normWs s = "") from by simp]
          exact he
        · exact ihrest x hx''
    | comment s =>
      rw [normTextsL_comment] at hx
      have hx' : x ∈ allTextsN (.comment s) ++ allTextsL (normTextsL rest) := hx
      rcases List.mem_append.1 hx' with hx'' | hx''
      · cases hx''
      · exact ihrest x hx''
    | elem t a cs' =>
      rw [normTextsL_elem] at hx
      have hx' : x ∈ allTextsN (.elem t a (normTextsL cs')) ++ allTextsL (normTextsL rest) := hx
      rcases List.mem_append.1 hx' with hx'' | hx''
      · exact hcs _ (List.mem_cons_self _ _) (fun s h => by cases h) x hx''
      · exact ihrest x hx''

/-- The text pass leaves only normalized, non-empty texts (non-text nodes). -/
theorem normTextsN_textsOK : ∀ n : HNode, (∀ s, n ≠ .text s) →
    ∀ x ∈ allTextsN (normTextsN n), normWs x = x ∧ x ≠ "" := by
  intro n
  induction n using HNode.ind with
  | h1 s => intro h; exact absurd rfl (h s)
  | h2 s => intro _ x hx; cases hx
  | h3 t a cs ih =>
    intro _ x hx
    have hx' : x ∈ allTextsL (normTextsL cs) := hx
    exact normTextsL_textsOK_aux cs ih x hx'

/-- The text pass is the identity on normalized lists. -/
theorem normTextsL_id_aux (cs : List HNode)
    (hcs : ∀ c ∈ cs, (∀ x ∈ allTextsN c, normWs x = x ∧ x ≠ "") → normTextsN c = c)
    (h : ∀ x ∈ allTextsL cs, normWs x = x ∧ x ≠ "") : normTextsL cs = cs := by
  induction cs with
  | nil => rfl
  | cons c rest ih =>
    have hrest : ∀ x ∈ allTextsL rest, normWs x = x ∧ x ≠ "" := by
      intro x hx
      exact h x (by rw [allTextsL]; exact List.mem_append_right _ hx)
    have ihrest := ih (fun x hx => hcs x (List.mem_cons_of_mem _ hx)) hrest
    cases c with
    | text s =>
      have hs : normWs s = s ∧ s ≠ "" := by
        refine h s ?_
        rw [allTextsL]
        exact List.mem_append_left _ (by simp [allTextsN])
      rw [normTextsL_text, hs.1]
      rw [if_neg (by simpa using hs.2), ihrest]
    | comment s =>
      rw [normTextsL_comment, ihrest]
    | elem t a cs' =>
      have hc : normTextsN (.elem t a cs') = .elem t a cs' := by
        refine hcs _ (List.mem_cons_self _ _) fun x hx => ?_
        refine h x ?_
        rw [allTextsL]
        exact List.mem_append_left _ hx
      show normTextsN (.elem t a cs') :: normTextsL rest = _
      rw [hc, ihrest]

/-- The text pass is the identity on normalized nodes. -/
theorem normTextsN_id : ∀ n : HNode,
    (∀ x ∈ allTextsN n, normWs x = x ∧ x ≠ "") → normTextsN n = n := by
  intro n
  induction n using HNode.ind with
  | h1 s => intro _; rfl
  | h2 s => intro _; rfl
  | h3 t a cs ih =>
    intro h
    show HNode.elem t a (normTextsL cs) = .elem t a cs
    rw [normTextsL_id_aux cs ih h]

/-! ## The re-parse of the second canonicalization pass (C7)

`_canonicalize` starts from `BeautifulSoup(str(tag), 'html.parser')`
(main.py:80). On the canonical form itself, whose comment pass may have left
two text nodes adjacent, this round trip merges those neighbours into one
text node — so re-canonicalization is the identity only up to `mergeTextsN`.
The lemmas below show the merged texts stay normalized, so nothing else
changes on the second pass. -/

/-- Glue a token onto the head of a token list; the merging of the boundary
tokens when two normalized strings are concatenated. -/
def tokGlue (u : List Char) : List (List Char) → List (List Char)
  | [] => [u]
  | t :: ts => (u ++ t) :: ts

/-- `wsGlue` always yields at least one token. -/
theorem wsGlue_cons (c : Char) (cs : List Char) (rest : List (List Char)) :
    ∃ h ts, wsGlue c cs rest = h :: ts := by
  cases cs with
  | nil => exact ⟨[c], [], rfl⟩
  | cons d cs' =>
    rw [wsGlue]
    by_cases hd : isWsChar d
    · rw [if_pos hd]
      exact ⟨[c], rest, rfl⟩
    · rw [if_neg hd]
      cases rest with
      | nil => exact ⟨[c], [], rfl⟩
      | cons t ts => exact ⟨c :: t, ts, rfl⟩

/-- Tokenizing a list that starts with a non-whitespace character yields at
least one token. -/
theorem wsTokens_nonws_cons (c : Char) (rr : List Char) (hc : isWsChar c = false) :
    ∃ h ts, wsTokens (c :: rr) = h :: ts := by
  rw [wsTokens, if_neg (by simp [hc])]
  exact wsGlue_cons c rr (wsTokens rr)

/-- A token followed directly by non-whitespace input merges into the
input's first token. -/
theorem wsTokens_tok_append : ∀ u : List Char, wsTok u → ∀ (c : Char) (rr : List Char),
    isWsChar c = false → wsTokens (u ++ c :: rr) = tokGlue u (wsTokens (c :: rr)) := by
  intro u
  induction u with
  | nil => intro h; exact absurd rfl h.1
  | cons x u' ih =>
    intro h c rr hc
    have hx : isWsChar x = false := h.2 x (List.mem_cons_self _ _)
    rw [List.cons_append, wsTokens, if_neg (by simp [hx])]
    obtain ⟨h0, ts0, hts⟩ := wsTokens_nonws_cons c rr hc
    cases u' with
    | nil =>
      rw [List.nil_append, wsGlue, if_neg (by simp [hc]), hts]
      rfl
    | cons d u'' =>
      have hd : isWsChar d = false := h.2 d (List.mem_cons_of_mem _ (List.mem_cons_self _ _))
      rw [List.cons_append, wsGlue, if_neg (by simp [hd])]
      have hih : wsTokens ((d :: u'') ++ c :: rr) = tokGlue (d :: u'') (wsTokens (c :: rr)) := by
        refine ih ⟨by simp, ?_⟩ c rr hc
        intro y hy
        exact h.2 y (List.mem_cons_of_mem _ hy)
      rw [List.cons_append] at hih
      rw [hih, hts]
      rfl

/-- A normalized nonempty character list starts with a non-whitespace
character. -/
theorem normal_head_nonws (b : List Char) (hb : normWsL b = b) (hb' : b ≠ []) :
    ∃ c bb, b = c :: bb ∧ isWsChar c = false := by
  cases hB : wsTokens b with
  | nil =>
    exfalso
    have hjoin : normWsL b = [] := by rw [normWsL, hB]; rfl
    rw [hjoin] at hb
    exact hb' hb.symm
  | cons h0 ts0 =>
    have hh0 : wsTok h0 := wsTokens_tok b h0 (by rw [hB]; exact List.mem_cons_self _ _)
    cases h0 with
    | nil => exact absurd rfl hh0.1
    | cons c0 h0' =>
      have hc0 : isWsChar c0 = false := hh0.2 c0 (List.mem_cons_self _ _)
      have hbe : joinSp ((c0 :: h0') :: ts0) = b := by
        rw [← hB]
        exact hb
      cases ts0 with
      | nil => exact ⟨c0, h0', hbe.symm, hc0⟩
      | cons t' ts' =>
        refine ⟨c0, h0' ++ ' ' :: joinSp (t' :: ts'), ?_, hc0⟩
        rw [← hbe]
        rfl

/-- Appending a normalized nonempty list to a space-joined token list stays
normalized: the boundary tokens merge into a single larger token. -/
theorem normWsL_joinSp_append : ∀ A : List (List Char), (∀ t ∈ A, wsTok t) → A ≠ [] →
    ∀ b : List Char, normWsL b = b → b ≠ [] →
    normWsL (joinSp A ++ b) = joinSp A ++ b := by
  intro A
  induction A with
  | nil => intro _ hA; exact absurd rfl hA
  | cons u A' ih =>
    intro hAtok _ b hbn hbe
    have hu : wsTok u := hAtok u (List.mem_cons_self _ _)
    cases A' with
    | nil =>
      obtain ⟨c0, bb, hbsh, hc0⟩ := normal_head_nonws b hbn hbe
      have hWb : joinSp (wsTokens b) = b := hbn
      show normWsL (u ++ b) = u ++ b
      rw [hbsh, normWsL, wsTokens_tok_append u hu c0 bb hc0, ← hbsh]
      cases hB : wsTokens b with
      | nil =>
        exfalso
        rw [hB] at hWb
        exact hbe hWb.symm
      | cons h0 ts0 =>
        rw [hB] at hWb
        rw [← hWb, tokGlue]
        cases ts0 with
        | nil => rfl
        | cons t1 ts1 =>
          show (u ++ h0) ++ ' ' :: joinSp (t1 :: ts1) = u ++ (h0 ++ ' ' :: joinSp (t1 :: ts1))
          rw [List.append_assoc]
    | cons u' A'' =>
      have hstep : joinSp (u :: u' :: A'') ++ b = u ++ ' ' :: (joinSp (u' :: A'') ++ b) := by
        show (u ++ ' ' :: joinSp (u' :: A'')) ++ b = _
        rw [List.append_assoc, List.cons_append]
      have hih : normWsL (joinSp (u' :: A'') ++ b) = joinSp (u' :: A'') ++ b :=
        ih (fun t ht => hAtok t (List.mem_cons_of_mem _ ht)) (by simp) b hbn hbe
      rw [hstep, normWsL, wsTokens_tok_space u (joinSp (u' :: A'') ++ b) hu]
      have hih' : joinSp (wsTokens (joinSp (u' :: A'') ++ b)) = joinSp (u' :: A'') ++ b := hih
      cases hX : wsTokens (joinSp (u' :: A'') ++ b) with
      | nil =>
        exfalso
        rw [hX] at hih'
        have hnil : joinSp (u' :: A'') ++ b = [] := hih'.symm
        exact hbe (List.append_eq_nil.1 hnil).2
      | cons x xs =>
        rw [hX] at hih'
        show u ++ ' ' :: joinSp (x :: xs) = u ++ ' ' :: (joinSp (u' :: A'') ++ b)
        rw [hih']

/-- Concatenating two normalized nonempty strings — what the re-parse does to
two adjacent text nodes — is again normalized and nonempty. -/
theorem normWs_append (s t : String) (hs : normWs s = s) (ht : normWs t = t)
    (hs' : s ≠ "") (ht' : t ≠ "") : normWs (s ++ t) = s ++ t ∧ s ++ t ≠ "" := by
  have hsd : normWsL s.data = s.data := congrArg String.data hs
  have htd : normWsL t.data = t.data := congrArg String.data ht
  have hsd' : s.data ≠ [] := fun h => hs' (String.ext (by rw [h]))
  have htd' : t.data ≠ [] := fun h => ht' (String.ext (by rw [h]))
  constructor
  · have hsj : joinSp (wsTokens s.data) = s.data := hsd
    have hAne : wsTokens s.data ≠ [] := by
      intro h
      rw [h] at hsj
      exact hsd' hsj.symm
    have key := normWsL_joinSp_append (wsTokens s.data) (wsTokens_tok s.data) hAne
      t.data htd htd'
    rw [hsj] at key
    refine String.ext ?_
    show normWsL ((s ++ t).data) = (s ++ t).data
    rw [String.data_append]
    exact key
  · intro h
    apply hsd'
    have hdata : (s ++ t).data = [] := by rw [h]
    rw [String.data_append] at hdata
    exact (List.append_eq_nil.1 hdata).1

/-- The glue step of the text merge creates no comments. -/
theorem mergeGlue_comments (s : String) (M : List HNode) :
    allCommentsL (mergeGlue s M) = allCommentsL M := by
  cases M with
  | nil => rfl
  | cons m tail => cases m <;> rfl

/-- The re-parse's text merge does not touch comments (list form). -/
theorem mergeTextsL_comments_aux (cs : List HNode)
    (hcs : ∀ c ∈ cs, allCommentsN (mergeTextsN c) = allCommentsN c) :
    allCommentsL (mergeTextsL cs) = allCommentsL cs := by
  induction cs with
  | nil => rfl
  | cons c rest ih =>
    have ihrest := ih fun x hx => hcs x (List.mem_cons_of_mem _ hx)
    cases c with
    | text s =>
      show allCommentsL (mergeGlue s (mergeTextsL rest)) =
        allCommentsN (.text s) ++ allCommentsL rest
      rw [mergeGlue_comments, ihrest]
      rfl
    | comment s =>
      show allCommentsN (mergeTextsN (.comment s)) ++ allCommentsL (mergeTextsL rest) =
        allCommentsN (.comment s) ++ allCommentsL rest
      rw [ihrest]
      rfl
    | elem t a cs' =>
      show allCommentsN (mergeTextsN (.elem t a cs')) ++ allCommentsL (mergeTextsL rest) =
        allCommentsN (.elem t a cs') ++ allCommentsL rest
      rw [hcs _ (List.mem_cons_self _ _), ihrest]

/-- The re-parse's text merge does not touch comments. -/
theorem mergeTextsN_comments : ∀ n : HNode, allCommentsN (mergeTextsN n) = allCommentsN n := by
  intro n
  induction n using HNode.ind with
  | h1 s => rfl
  | h2 s => rfl
  | h3 t a cs ih =>
    show allCommentsL (mergeTextsL cs) = allCommentsL cs
    exact mergeTextsL_comments_aux cs ih

/-- The glue step of the text merge introduces no elements. -/
theorem mergeGlue_attrs (Q : List (String × AVal) → Prop) (s : String) (M : List HNode)
    (h : ∀ e ∈ allElemsL M, Q (elemAttrs e)) :
    ∀ e ∈ allElemsL (mergeGlue s M), Q (elemAttrs e) := by
  cases M with
  | nil => intro e he; exact h e he
  | cons m tail => cases m <;> (intro e he; exact h e he)

/-- The re-parse's text merge does not touch attributes (list form). -/
theorem mergeTextsL_attrs_aux (Q : List (String × AVal) → Prop) (cs : List HNode)
    (hcs : ∀ c ∈ cs, (∀ e ∈ allElemsN c, Q (elemAttrs e)) →
      ∀ e ∈ allElemsN (mergeTextsN c), Q (elemAttrs e))
    (h : ∀ e ∈ allElemsL cs, Q (elemAttrs e)) :
    ∀ e ∈ allElemsL (mergeTextsL cs), Q (elemAttrs e) := by
  induction cs with
  | nil => intro e he; cases he
  | cons c rest ih =>
    have hrest : ∀ e ∈ allElemsL rest, Q (elemAttrs e) := by
      intro e he
      exact h e (by rw [allElemsL]; exact List.mem_append_right _ he)
    have hihrest : ∀ e ∈ allElemsL (mergeTextsL rest), Q (elemAttrs e) :=
      ih (fun x hx => hcs x (List.mem_cons_of_mem _ hx)) hrest
    cases c with
    | text s =>
      intro e he
      have he' : e ∈ allElemsL (mergeGlue s (mergeTextsL rest)) := he
      exact mergeGlue_attrs Q s (mergeTextsL rest) hihrest e he'
    | comment s =>
      intro e he
      have he' : e ∈ allElemsN (mergeTextsN (.comment s)) ++
        allElemsL (mergeTextsL rest) := he
      rcases List.mem_append.1 he' with he'' | he''
      · cases he''
      · exact hihrest e he''
    | elem t a cs' =>
      intro e he
      have he' : e ∈ allElemsN (mergeTextsN (.elem t a cs')) ++
        allElemsL (mergeTextsL rest) := he
      rcases List.mem_append.1 he' with he'' | he''
      · refine hcs _ (List.mem_cons_self _ _) ?_ e he''
        intro x hx
        exact h x (by rw [allElemsL]; exact List.mem_append_left _ hx)
      · exact hihrest e he''

/-- The re-parse's text merge does not touch attributes. -/
theorem mergeTextsN_attrs (Q : List (String × AVal) → Prop) :
    ∀ n : HNode, (∀ e ∈ allElemsN n, Q (elemAttrs e)) →
      ∀ e ∈ allElemsN (mergeTextsN n), Q (elemAttrs e) := by
  intro n
  induction n using HNode.ind with
  | h1 s => intro _ e he; cases he
  | h2 s => intro _ e he; cases he
  | h3 t a cs ih =>
    intro h e he
    have he' : e ∈ HNode.elem t a (mergeTextsL cs) :: allElemsL (mergeTextsL cs) := he
    rcases List.mem_cons.1 he' with rfl | he''
    · exact h (.elem t a cs) (by rw [allElemsN]; exact List.mem_cons_self _ _)
    · refine mergeTextsL_attrs_aux Q cs ih ?_ e he''
      intro x hx
      exact h x (by rw [allElemsN]; exact List.mem_cons_of_mem _ hx)

/-- The glue step of the text merge keeps every text normalized and nonempty
when the glued text and the tail's texts are. -/
theorem mergeGlue_texts (s : String) (M : List HNode)
    (hsok : normWs s = s ∧ s ≠ "")
    (h : ∀ x ∈ allTextsL M, normWs x = x ∧ x ≠ "") :
    ∀ x ∈ allTextsL (mergeGlue s M), normWs x = x ∧ x ≠ "" := by
  cases M with
  | nil =>
    intro x hx
    have hx' : x ∈ allTextsN (.text s) ++ allTextsL ([] : List HNode) := hx
    rcases List.mem_append.1 hx' with hx'' | hx''
    · simp only [allTextsN, List.mem_singleton] at hx''
      subst hx''
      exact hsok
    · cases hx''
  | cons m tail =>
    cases m with
    | text s2 =>
      intro x hx
      have hs2 : normWs s2 = s2 ∧ s2 ≠ "" := by
        refine h s2 ?_
        show s2 ∈ allTextsN (.text s2) ++ allTextsL tail
        exact List.mem_append_left _ (by simp [allTextsN])
      have hx' : x ∈ allTextsN (.text (s ++ s2)) ++ allTextsL tail := hx
      rcases List.mem_append.1 hx' with hx'' | hx''
      · simp only [allTextsN, List.mem_singleton] at hx''
        subst hx''
        exact normWs_append s s2 hsok.1 hs2.1 hsok.2 hs2.2
      · refine h x ?_
        show x ∈ allTextsN (.text s2) ++ allTextsL tail
        exact List.mem_append_right _ hx''
    | comment s2 =>
      intro x hx
      have hx' : x ∈ allTextsN (.text s) ++
        (allTextsN (.comment s2) ++ allTextsL tail) := hx
      rcases List.mem_append.1 hx' with hx'' | hx''
      · simp only [allTextsN, List.mem_singleton] at hx''
        subst hx''
        exact hsok
      · exact h x hx''
    | elem t a cs =>
      intro x hx
      have hx' : x ∈ allTextsN (.text s) ++
        (allTextsN (.elem t a cs) ++ allTextsL tail) := hx
      rcases List.mem_append.1 hx' with hx'' | hx''
      · simp only [allTextsN, List.mem_singleton] at hx''
        subst hx''
        exact hsok
      · exact h x hx''

/-- The re-parse's text merge keeps every text normalized and nonempty
(list form). -/
theorem mergeTextsL_texts_aux (cs : List HNode)
    (hcs : ∀ c ∈ cs, (∀ x ∈ allTextsN c, normWs x = x ∧ x ≠ "") →
      ∀ x ∈ allTextsN (mergeTextsN c), normWs x = x ∧ x ≠ "")
    (h : ∀ x ∈ allTextsL cs, normWs x = x ∧ x ≠ "") :
    ∀ x ∈ allTextsL (mergeTextsL cs), normWs x = x ∧ x ≠ "" := by
  induction cs with
  | nil => intro x hx; cases hx
  | cons c rest ih =>
    have hrest : ∀ x ∈ allTextsL rest, normWs x = x ∧ x ≠ "" := by
      intro x hx
      exact h x (by rw [allTextsL]; exact List.mem_append_right _ hx)
    have hihrest : ∀ x ∈ allTextsL (mergeTextsL rest), normWs x = x ∧ x ≠ "" :=
      ih (fun y hy => hcs y (List.mem_cons_of_mem _ hy)) hrest
    cases c with
    | text s =>
      intro x hx
      have hs : normWs s = s ∧ s ≠ "" := by
        refine h s ?_
        rw [allTextsL]
        exact List.mem_append_left _ (by simp [allTextsN])
      have hx' : x ∈ allTextsL (mergeGlue s (mergeTextsL rest)) := hx
      exact mergeGlue_texts s (mergeTextsL rest) hs hihrest x hx'
    | comment s =>
      intro x hx
      have hx' : x ∈ allTextsN (mergeTextsN (.comment s)) ++
        allTextsL (mergeTextsL rest) := hx
      rcases List.mem_append.1 hx' with hx'' | hx''
      · cases hx''
      · exact hihrest x hx''
    | elem t a cs' =>
      intro x hx
      have hx' : x ∈ allTextsN (mergeTextsN (.elem t a cs')) ++
        allTextsL (mergeTextsL rest) := hx
      rcases List.mem_append.1 hx' with hx'' | hx''
      · refine hcs _ (List.mem_cons_self _ _) ?_ x hx''
        intro y hy
        exact h y (by rw [allTextsL]; exact List.mem_append_left _ hy)
      · exact hihrest x hx''

/-- The re-parse's text merge keeps every text normalized and nonempty. -/
theorem mergeTextsN_texts : ∀ n : HNode,
    (∀ x ∈ allTextsN n, normWs x = x ∧ x ≠ "") →
    ∀ x ∈ allTextsN (mergeTextsN n), normWs x = x ∧ x ≠ "" := by
  intro n
  induction n using HNode.ind with
  | h1 s => intro h x hx; exact h x hx
  | h2 s => intro _ x hx; cases hx
  | h3 t a cs ih =>
    intro h x hx
    have hx' : x ∈ allTextsL (mergeTextsL cs) := hx
    exact mergeTextsL_texts_aux cs ih h x hx'

/-- C7 counterexample: canonicalization is not idempotent at tree identity.
Removing the comment from `<nav>Hello <!--c--> World</nav>` leaves the two
text nodes `Hello` and `World` adjacent in the canonical form; on the second
pass the serialize-and-re-parse step writes them as one run of character data
and reads back the single text node `HelloWorld`, a different tree (even
`_get_node_size` drops from 2 to 1). -/
theorem recanonicalize_merges_adjacent_texts :
    canonicalize (.elem "nav" [] [.text "Hello ", .comment "c", .text " World"]) =
      some (.elem "nav" [] [.text "Hello", .text "World"]) ∧
    canonicalize (.elem "nav" [] [.text "Hello", .text "World"]) =
      some (.elem "nav" [] [.text "HelloWorld"]) ∧
    (HNode.elem "nav" [] [.text "HelloWorld"]) ≠
      .elem "nav" [] [.text "Hello", .text "World"] :=
  ⟨rfl, rfl, by simp⟩

/-- C7 amended: canonicalization is idempotent up to the re-parse's merging
of adjacent text nodes. Re-canonicalizing a canonical form yields exactly the
canonical form with adjacent text nodes coalesced — the second pass removes
no comment, changes no attribute or class token, and alters no text beyond
that concatenation; when the canonical form has no adjacent text nodes it is
returned identically. -/
theorem canonicalize_idempotent_up_to_text_merge (n r : HNode)
    (h : canonicalize n = some r) :
    canonicalize r = some (mergeTextsN r) ∧
      (mergeTextsN r = r → canonicalize r = some r) := by
  suffices hmain : canonicalize r = some (mergeTextsN r) by
    refine ⟨hmain, fun hmr => ?_⟩
    rw [hmain, hmr]
  cases n with
  | text s => cases h
  | comment s => cases h
  | elem t a cs =>
    rw [show canonicalize (.elem t a cs) =
      some (.elem t a (normTextsL (procAttrsL (removeCommentsL
        (mergeTextsL cs))))) from rfl] at h
    cases h
    have h1 : allCommentsL (normTextsL (procAttrsL (removeCommentsL
        (mergeTextsL cs)))) = [] := by
      rw [normTextsL_comments_aux _ fun c _ => normTextsN_comments c,
        procAttrsL_comments_aux _ fun c _ => procAttrsN_comments c,
        removeCommentsL_clean_aux (mergeTextsL cs) fun c _ => removeCommentsN_clean c]
    have h1m : allCommentsL (mergeTextsL (normTextsL (procAttrsL (removeCommentsL
        (mergeTextsL cs))))) = [] := by
      rw [mergeTextsL_comments_aux _ fun c _ => mergeTextsN_comments c]
      exact h1
    have h2 : removeCommentsL (mergeTextsL (normTextsL (procAttrsL (removeCommentsL
        (mergeTextsL cs))))) =
        mergeTextsL (normTextsL (procAttrsL (removeCommentsL (mergeTextsL cs)))) :=
      removeCommentsL_id_aux _ (fun c _ => removeCommentsN_id c) h1m
    have h3 : ∀ e ∈ allElemsL (normTextsL (procAttrsL (removeCommentsL
        (mergeTextsL cs)))), canonElAttrs (elemAttrs e) = elemAttrs e := by
      refine normTextsL_attrs_aux (fun a0 => canonElAttrs a0 = a0) _
        (fun c _ => normTextsN_attrs (fun a0 => canonElAttrs a0 = a0) c) ?_
      intro e he
      exact procAttrsL_estab_aux (fun a0 => canonElAttrs a0 = a0) _
        (fun c _ => procAttrsN_estab (fun a0 => canonElAttrs a0 = a0) canonElAttrs_idem c)
        e he
    have h3m : ∀ e ∈ allElemsL (mergeTextsL (normTextsL (procAttrsL (removeCommentsL
        (mergeTextsL cs))))), canonElAttrs (elemAttrs e) = elemAttrs e :=
      mergeTextsL_attrs_aux (fun a0 => canonElAttrs a0 = a0) _
        (fun c _ => mergeTextsN_attrs (fun a0 => canonElAttrs a0 = a0) c) h3
    have h4 : procAttrsL (mergeTextsL (normTextsL (procAttrsL (removeCommentsL
        (mergeTextsL cs))))) =
        mergeTextsL (normTextsL (procAttrsL (removeCommentsL (mergeTextsL cs)))) :=
      procAttrsL_id_aux _ (fun c _ => procAttrsN_id c) h3m
    have h5 : ∀ x ∈ allTextsL (normTextsL (procAttrsL (removeCommentsL
        (mergeTextsL cs)))), normWs x = x ∧ x ≠ "" :=
      normTextsL_textsOK_aux _ fun c _ => normTextsN_textsOK c
    have h5m : ∀ x ∈ allTextsL (mergeTextsL (normTextsL (procAttrsL (removeCommentsL
        (mergeTextsL cs))))), normWs x = x ∧ x ≠ "" :=
      mergeTextsL_texts_aux _ (fun c _ => mergeTextsN_texts c) h5
    have h6 : normTextsL (mergeTextsL (normTextsL (procAttrsL (removeCommentsL
        (mergeTextsL cs))))) =
        mergeTextsL (normTextsL (procAttrsL (removeCommentsL (mergeTextsL cs)))) :=
      normTextsL_id_aux _ (fun c _ => normTextsN_id c) h5m
    rw [show canonicalize (.elem t a (normTextsL (procAttrsL (removeCommentsL
        (mergeTextsL cs))))) =
      some (.elem t a (normTextsL (procAttrsL (removeCommentsL (mergeTextsL
        (normTextsL (procAttrsL (removeCommentsL (mergeTextsL cs))))))))) from rfl]
    rw [show mergeTextsN (.elem t a (normTextsL (procAttrsL (removeCommentsL
        (mergeTextsL cs))))) =
      HNode.elem t a (mergeTextsL (normTextsL (procAttrsL (removeCommentsL
        (mergeTextsL cs))))) from rfl]
    rw [h2, h4, h6]

/-- C7 witness: at the canonical form of a concrete `nav` with one raw text,
re-canonicalization returns the merged (here: unchanged) canonical form. -/
theorem canonicalize_idempotent_up_to_text_merge_witness :
    canonicalize (.elem "nav" [] [.text "a b"]) =
      some (mergeTextsN (.elem "nav" [] [.text "a b"])) ∧
      (mergeTextsN (.elem "nav" [] [.text "a b"]) = .elem "nav" [] [.text "a b"] →
        canonicalize (.elem "nav" [] [.text "a b"]) =
          some (.elem "nav" [] [.text "a b"])) :=
  canonicalize_idempotent_up_to_text_merge
    (.elem "nav" [] [.text " a  b "]) (.elem "nav" [] [.text "a b"]) rfl
